import Mathlib

/-!
Shallow embedding of the xv6 file-system core (src/fs.c, src/file.c,
src/sysfile.c) and proofs about its read/write paths, inode cache,
directory layer and path parser.

Machine integers are modelled as `Nat` (for C `uint`) with explicit
reduction modulo 2^32 where overflow matters, and as `Int` for C `int`.
The block device is abstracted behind each inode's byte-content function
(`bread`/`bmap` composed give the byte at a file offset), which is the
granularity at which `readi`/`writei` observe it.
-/

/-- Reduction of unsigned 32-bit arithmetic: C `uint` values wrap modulo 2^32. -/
def u32 (x : Nat) : Nat := x % 4294967296

/-- Conversion of a C `int` to a C `uint` argument (two's complement). -/
def intToU32 (n : Int) : Nat := (n % 4294967296).toNat

/-- Block size in bytes. The spec fixes `BSIZE = 512`; src/file.c also uses the
literal 512. -/
def BSIZE : Nat := 512

/-- Modelled from the spec: file-type tags from the missing stat.h header.
Type 0 marks a free on-disk inode; `T_DIR = 1` and `T_DEV = 3` are stated in
fs.c comments, and the file type sits between them. -/
def T_DIR : Nat := 1

/-- Modelled from the spec: regular-file type tag from the missing stat.h. -/
def T_FILE : Nat := 2

/-- Modelled from the spec: device-file type tag from the missing stat.h
(fs.c comments state `T_DEV 3`). -/
def T_DEV : Nat := 3

/-- The device switch consumed by `readi`/`writei` (external interface):
`ndev` bounds valid majors, `hasRead`/`hasWrite` model the null-function
checks, and `read`/`write` give the device call's return value for a
request of `n` bytes. -/
structure DevSw where
  ndev : Int
  hasRead : Int → Bool
  read : Int → Nat → Int
  hasWrite : Int → Bool
  write : Int → Nat → Int

/-- In-memory inode as seen by the content-mapping layer (`readi`/`writei`):
type, device major, byte size, and the file's byte content at each offset
(the composition of `bmap` and the block cache). -/
structure CInode where
  itype : Nat
  major : Int
  size : Nat
  content : Nat → Nat

/-- The copy loop of `readi` (fs.c): starting at byte `off`, gather `n` bytes
in chunks that never cross a block boundary (`m = min(n - tot, BSIZE - off % BSIZE)`). -/
def readLoop (content : Nat → Nat) (off n : Nat) : List Nat :=
  if h : n = 0 then [] else
    ((List.range (min n (BSIZE - off % BSIZE))).map fun i => content (off + i)) ++
      readLoop content (off + min n (BSIZE - off % BSIZE)) (n - min n (BSIZE - off % BSIZE))
termination_by n
decreasing_by
  have hb : 0 < BSIZE - off % BSIZE := by
    have : off % BSIZE < BSIZE := Nat.mod_lt _ (by decide)
    omega
  omega

/-- Result of `readi`: device dispatch with the device's return value,
the -1 error return, or success carrying the C return value `n` (the
clamped count) and the bytes copied to `dst`. -/
inductive RRes where
  | dev (r : Int)
  | err
  | ok (count : Nat) (bytes : List Nat)
deriving DecidableEq

/-- `readi(ip, dst, off, n)` from fs.c: device inodes dispatch through the
device switch; otherwise reject `off > size` and uint overflow of `off + n`,
clamp `n` to `size - off`, and copy block-bounded chunks. -/
def readi (dsw : DevSw) (ip : CInode) (off n : Nat) : RRes :=
  if ip.itype = T_DEV then
    if ip.major < 0 ∨ dsw.ndev ≤ ip.major ∨ dsw.hasRead ip.major = false then .dev (-1)
    else .dev (dsw.read ip.major n)
  else if ip.size < off ∨ u32 (off + n) < off then .err
  else
    RRes.ok (if ip.size < u32 (off + n) then ip.size - off else n)
      (readLoop ip.content off (if ip.size < u32 (off + n) then ip.size - off else n))

/-- The chunked copy loop gathers exactly the `n` consecutive content bytes
starting at `off`. -/
theorem readLoop_eq (content : Nat → Nat) :
    ∀ n off, readLoop content off n = (List.range n).map fun i => content (off + i) := by
  intro n
  induction n using Nat.strong_induction_on with
  | _ n ih =>
    intro off
    rw [readLoop]
    by_cases h : n = 0
    · simp [h]
    · simp only [h, dite_false]
      have hb : 0 < BSIZE - off % BSIZE := by
        have : off % BSIZE < BSIZE := Nat.mod_lt _ (by decide)
        omega
      have hm : 0 < min n (BSIZE - off % BSIZE) := by omega
      have hle : min n (BSIZE - off % BSIZE) ≤ n := Nat.min_le_left _ _
      rw [ih (n - min n (BSIZE - off % BSIZE)) (by omega)]
      have hsplit : n = min n (BSIZE - off % BSIZE) + (n - min n (BSIZE - off % BSIZE)) := by
        omega
      conv_rhs => rw [hsplit]
      rw [List.range_add, List.map_append, List.map_map]
      congr 1
      apply List.map_congr_left
      intro a _
      simp only [Function.comp]
      congr 1
      omega

/-- Under 32-bit bounds, the C test `off + n < off` on uints detects exactly
mathematical overflow of `off + n`. -/
theorem u32_add_lt_iff (off n : Nat) (hoff : off < 4294967296) (hn : n < 4294967296) :
    u32 (off + n) < off ↔ 4294967296 ≤ off + n := by
  unfold u32
  omega

/-- A fixed empty device switch, for concrete instantiations. -/
def dsw0 : DevSw := ⟨0, fun _ => false, fun _ _ => -1, fun _ => false, fun _ _ => -1⟩

/-- A concrete 5-byte regular file whose byte at offset `i` is `i + 10`. -/
def ip1 : CInode := ⟨T_FILE, 0, 5, fun i => i + 10⟩

/-- Claim C1: for a non-device inode, `readi(ip, dst, off, n)` returns -1 when
`off > ip->size` or when `off + n` overflows (`off + n < off` on uints);
otherwise it copies `min(n, size - off)` consecutive bytes starting at `off`
and returns that clamped count. -/
theorem readi_bounds_clamp (dsw : DevSw) (ip : CInode) (off n : Nat)
    (hdev : ip.itype ≠ T_DEV) (hoff : off < 4294967296) (hn : n < 4294967296)
    (hsz : ip.size < 4294967296) :
    ((ip.size < off ∨ 4294967296 ≤ off + n) → readi dsw ip off n = .err) ∧
    (off ≤ ip.size → off + n < 4294967296 →
      readi dsw ip off n =
        .ok (min n (ip.size - off))
          ((List.range (min n (ip.size - off))).map fun i => ip.content (off + i))) := by
  constructor
  · intro hrej
    rw [readi, if_neg hdev, if_pos]
    rcases hrej with hrej | hrej
    · exact Or.inl hrej
    · exact Or.inr ((u32_add_lt_iff off n hoff hn).mpr hrej)
  · intro hle hnov
    rw [readi, if_neg hdev, if_neg]
    · have hu : u32 (off + n) = off + n := Nat.mod_eq_of_lt hnov
      have hclamp : (if ip.size < u32 (off + n) then ip.size - off else n)
          = min n (ip.size - off) := by
        rw [hu]
        split <;> omega
      rw [hclamp, readLoop_eq]
    · rw [u32_add_lt_iff off n hoff hn]
      omega

/-- Witness for C1: reading 10 bytes at offset 2 of a 5-byte file copies the
3 bytes `[12, 13, 14]` and returns 3. -/
theorem readi_bounds_clamp_witness :
    ip1.itype ≠ T_DEV ∧ 2 ≤ ip1.size ∧ 2 + 10 < 4294967296 ∧
      readi dsw0 ip1 2 10 =
        .ok (min 10 (ip1.size - 2))
          ((List.range (min 10 (ip1.size - 2))).map fun i => ip1.content (2 + i)) :=
  ⟨by decide, by decide, by decide,
    (readi_bounds_clamp dsw0 ip1 2 10 (by decide) (by decide) (by decide) (by decide)).2
      (by decide) (by decide)⟩

/-- A concrete 5-byte regular file of zero bytes. -/
def ip9 : CInode := ⟨T_FILE, 0, 5, fun _ => 0⟩

/-- Counterexample to claim C9 as stated: at `off == ip->size` (here 5) with
`n = 4294967295`, the uint sum `off + n` wraps below `off`, so `readi`
returns -1 rather than succeeding with 0 — reads at exactly end-of-file are
rejected whenever `off + n` overflows, not only when `off > size`. -/
theorem readi_eof_cex :
    readi dsw0 ip9 5 4294967295 = RRes.err ∧ RRes.err ≠ RRes.ok 0 [] := by
  constructor
  · rw [readi, if_neg (by decide), if_pos]
    exact Or.inr (by decide)
  · decide

/-- Claim C9 (amended): for a non-device inode, `readi` at `off == ip->size`
with no uint overflow of `off + n` succeeds and returns 0, copying nothing:
reading at exactly end-of-file is not an error. -/
theorem readi_at_eof (dsw : DevSw) (ip : CInode) (n : Nat)
    (hdev : ip.itype ≠ T_DEV) (hsz : ip.size < 4294967296) (hn : n < 4294967296)
    (hnov : ip.size + n < 4294967296) :
    readi dsw ip ip.size n = .ok 0 [] := by
  have h := (readi_bounds_clamp dsw ip ip.size n hdev hsz hn hsz).2 le_rfl hnov
  rw [h]
  simp

/-- Witness for the amended C9: reading 3 bytes at offset 5 of the 5-byte file
`ip9` returns 0 and copies nothing. -/
theorem readi_at_eof_witness :
    ip9.itype ≠ T_DEV ∧ ip9.size + 3 < 4294967296 ∧ readi dsw0 ip9 ip9.size 3 = .ok 0 [] :=
  ⟨by decide, by decide, readi_at_eof dsw0 ip9 3 (by decide) (by decide) (by decide) (by decide)⟩

/-- The copy loop of `writei` (fs.c): starting at byte `off`, store `n` bytes
of `src` into the content in chunks that never cross a block boundary, each
chunk being log-written (`memmove` into the buffer followed by `log_write`). -/
def writeLoop (content src : Nat → Nat) (off n : Nat) : Nat → Nat :=
  if n = 0 then content else
    writeLoop
      (fun j => if off ≤ j ∧ j < off + min n (BSIZE - off % BSIZE) then src (j - off) else content j)
      (fun k => src (min n (BSIZE - off % BSIZE) + k))
      (off + min n (BSIZE - off % BSIZE)) (n - min n (BSIZE - off % BSIZE))
termination_by n
decreasing_by
  have hb : 0 < BSIZE - off % BSIZE := by
    have : off % BSIZE < BSIZE := Nat.mod_lt _ (by decide)
    omega
  omega

/-- The chunked write loop is the pointwise update of the content by `src` on
the interval `[off, off + n)`. -/
theorem writeLoop_eq :
    ∀ n (src content : Nat → Nat) (off j : Nat), writeLoop content src off n j =
      if off ≤ j ∧ j < off + n then src (j - off) else content j := by
  intro n
  induction n using Nat.strong_induction_on with
  | _ n ih =>
    intro src content off j
    rw [writeLoop]
    by_cases h : n = 0
    · simp [h]
      rw [if_neg (by omega)]
    · simp only [h, if_false]
      have hb : 0 < BSIZE - off % BSIZE := by
        have : off % BSIZE < BSIZE := Nat.mod_lt _ (by decide)
        omega
      have hm : 0 < min n (BSIZE - off % BSIZE) := by omega
      have hle : min n (BSIZE - off % BSIZE) ≤ n := Nat.min_le_left _ _
      rw [ih (n - min n (BSIZE - off % BSIZE)) (by omega)]
      by_cases hj1 : off + min n (BSIZE - off % BSIZE) ≤ j ∧
          j < off + min n (BSIZE - off % BSIZE) + (n - min n (BSIZE - off % BSIZE))
      · rw [if_pos hj1, if_pos (by omega)]
        congr 1
        omega
      · rw [if_neg hj1]
        by_cases hj2 : off ≤ j ∧ j < off + min n (BSIZE - off % BSIZE)
        · rw [if_pos hj2, if_pos (by omega)]
        · rw [if_neg hj2, if_neg (by omega)]

/-- Result of `writei`: device dispatch with the device's return value, the
-1 error return, or success carrying the C return value `n`, the updated
inode (new content, possibly extended size), and whether the final
size-extension `iupdate` write-through ran. -/
inductive WRes where
  | dev (r : Int)
  | err
  | ok (count : Nat) (ip : CInode) (updated : Bool)

/-- `writei(ip, src, off, n)` from fs.c: device inodes dispatch through the
device switch; otherwise reject `off > size`, uint overflow of `off + n`, and
`off + n > MAXFILE*BSIZE`; copy block-bounded chunks from `src` through the
log; finally, if the write ended past the old size, update the cached size
and write the inode through (`iupdate`). `maxfile` stands for the `MAXFILE`
constant of the missing fs.h header. -/
def writei (dsw : DevSw) (maxfile : Nat) (ip : CInode) (src : Nat → Nat) (off n : Nat) : WRes :=
  if ip.itype = T_DEV then
    if ip.major < 0 ∨ dsw.ndev ≤ ip.major ∨ dsw.hasWrite ip.major = false then .dev (-1)
    else .dev (dsw.write ip.major n)
  else if ip.size < off ∨ u32 (off + n) < off then .err
  else if maxfile * BSIZE < u32 (off + n) then .err
  else if 0 < n ∧ ip.size < off + n then
    .ok n ⟨ip.itype, ip.major, off + n, writeLoop ip.content src off n⟩ true
  else
    .ok n ⟨ip.itype, ip.major, ip.size, writeLoop ip.content src off n⟩ false

/-- Claim C5: for a non-device inode, `writei(ip, src, off, n)` returns -1
whenever `off + n` exceeds `MAXFILE * BSIZE` (a write can never extend a file
past the maximum file size); and a successful write ending past the old size
updates the cached size to the new end offset `off + n` and calls `iupdate`,
while one that does not leaves the size alone and does not. -/
theorem writei_maxfile_size_update (dsw : DevSw) (maxfile : Nat) (ip : CInode)
    (src : Nat → Nat) (off n : Nat)
    (hdev : ip.itype ≠ T_DEV) (hoff : off < 4294967296) (hn : n < 4294967296)
    (hmf : maxfile * BSIZE < 4294967296) :
    (maxfile * BSIZE < off + n → writei dsw maxfile ip src off n = .err) ∧
    (off ≤ ip.size → off + n ≤ maxfile * BSIZE → ip.size < off + n →
      writei dsw maxfile ip src off n =
        .ok n ⟨ip.itype, ip.major, off + n, writeLoop ip.content src off n⟩ true) ∧
    (off ≤ ip.size → off + n ≤ maxfile * BSIZE → off + n ≤ ip.size →
      writei dsw maxfile ip src off n =
        .ok n ⟨ip.itype, ip.major, ip.size, writeLoop ip.content src off n⟩ false) := by
  refine ⟨?_, ?_, ?_⟩
  · intro hbig
    rw [writei, if_neg hdev]
    by_cases hrej : ip.size < off ∨ u32 (off + n) < off
    · rw [if_pos hrej]
    · rw [if_neg hrej, if_pos]
      have hnov : ¬u32 (off + n) < off := fun hc => hrej (Or.inr hc)
      have := (u32_add_lt_iff off n hoff hn).not.mp hnov
      have hu : u32 (off + n) = off + n := Nat.mod_eq_of_lt (by omega)
      omega
  · intro hle hbound hext
    have hnov : off + n < 4294967296 := by omega
    have hu : u32 (off + n) = off + n := Nat.mod_eq_of_lt hnov
    rw [writei, if_neg hdev, if_neg (by rw [u32_add_lt_iff off n hoff hn]; omega),
      if_neg (by rw [hu]; omega), if_pos ⟨by omega, hext⟩]
  · intro hle hbound hnoext
    have hnov : off + n < 4294967296 := by omega
    have hu : u32 (off + n) = off + n := Nat.mod_eq_of_lt hnov
    rw [writei, if_neg hdev, if_neg (by rw [u32_add_lt_iff off n hoff hn]; omega),
      if_neg (by rw [hu]; omega), if_neg (by omega)]

/-- Witness for C5, exercising both the over-maximum rejection and the
size-extending success on the concrete file `ip1` (size 5) with
`maxfile = 140`: writing 4 bytes at offset 3 extends the size to 7 and runs
`iupdate`, while a write ending past `140 * 512` bytes fails. -/
theorem writei_maxfile_size_update_witness :
    (140 * BSIZE < 3 + 99999 ∧ writei dsw0 140 ip1 (fun k => k) 3 99999 = .err) ∧
      (3 ≤ ip1.size ∧ ip1.size < 3 + 4 ∧
        writei dsw0 140 ip1 (fun k => k) 3 4 =
          .ok 4 ⟨ip1.itype, ip1.major, 3 + 4, writeLoop ip1.content (fun k => k) 3 4⟩ true) :=
  ⟨⟨by decide,
      (writei_maxfile_size_update dsw0 140 ip1 (fun k => k) 3 99999 (by decide) (by decide)
            (by decide) (by decide)).1 (by decide)⟩,
    ⟨by decide, by decide,
      (writei_maxfile_size_update dsw0 140 ip1 (fun k => k) 3 4 (by decide) (by decide)
            (by decide) (by decide)).2.1 (by decide) (by decide) (by decide)⟩⟩

/-- Open-file handle tags from file.h (via the `FD_NONE`/`FD_PIPE`/`FD_INODE`
uses in src/file.c). -/
inductive FType where
  | FD_NONE
  | FD_PIPE
  | FD_INODE
deriving DecidableEq

/-- Open-file handle (struct file): tag, reference count, direction flags,
and for inode-backed handles the inode and byte offset. The pipe payload is
external and is modelled by the pipe call results passed to `fileread` and
`filewrite`. -/
structure File where
  ftype : FType
  ref : Int
  readable : Bool
  writable : Bool
  ip : CInode
  off : Nat

/-- The C return value of `readi` as stored into `r` by its callers. -/
def rresToInt : RRes → Int
  | .dev d => d
  | .err => -1
  | .ok cnt _ => cnt

/-- `fileread(f, addr, n)` from src/file.c: reject unreadable handles with -1,
delegate pipes to `piperead` (whose result is the parameter `piperes`),
and for inode-backed handles call `readi` at the current offset, advancing
the offset by the return value exactly when it is positive. `none` models the
`panic("fileread")` for `FD_NONE` handles. -/
def fileread (dsw : DevSw) (piperes : Int) (f : File) (n : Int) : Option (Int × File) :=
  if f.readable = false then some (-1, f)
  else if f.ftype = .FD_PIPE then some (piperes, f)
  else if f.ftype = .FD_INODE then
    some (rresToInt (readi dsw f.ip f.off (intToU32 n)),
      if 0 < rresToInt (readi dsw f.ip f.off (intToU32 n))
      then { f with off := u32 (f.off + (rresToInt (readi dsw f.ip f.off (intToU32 n))).toNat) }
      else f)
  else none

/-- Claim C10: for an inode-backed readable handle, `fileread` leaves the
offset unchanged when `readi` returns zero or a negative value, advances it
by exactly the returned count (uint arithmetic) when positive, and leaves
every other handle field (type, ip, readable, writable, ref) unchanged in
every case. -/
theorem fileread_frame (dsw : DevSw) (piperes : Int) (f : File) (n : Int)
    (hty : f.ftype = .FD_INODE) (hrd : f.readable = true) :
    ∃ f', fileread dsw piperes f n =
        some (rresToInt (readi dsw f.ip f.off (intToU32 n)), f') ∧
      f'.ftype = f.ftype ∧ f'.ref = f.ref ∧ f'.readable = f.readable ∧
      f'.writable = f.writable ∧ f'.ip = f.ip ∧
      (rresToInt (readi dsw f.ip f.off (intToU32 n)) ≤ 0 → f'.off = f.off) ∧
      (0 < rresToInt (readi dsw f.ip f.off (intToU32 n)) →
        f'.off = u32 (f.off + (rresToInt (readi dsw f.ip f.off (intToU32 n))).toNat)) := by
  rw [fileread, if_neg (by rw [hrd]; decide), if_neg (by rw [hty]; decide), if_pos hty]
  by_cases hpos : 0 < rresToInt (readi dsw f.ip f.off (intToU32 n))
  · rw [if_pos hpos]
    exact ⟨_, rfl, rfl, rfl, rfl, rfl, rfl, fun hle => absurd hpos (by omega), fun _ => rfl⟩
  · rw [if_neg hpos]
    exact ⟨_, rfl, rfl, rfl, rfl, rfl, rfl, fun _ => rfl, fun hlt => absurd hlt hpos⟩

/-- A concrete readable inode-backed handle over `ip1` at offset 1. -/
def f10 : File := ⟨.FD_INODE, 1, true, false, ip1, 1⟩

/-- Witness for C10: on the handle `f10`, `readi` returns 2 (positive), so the
offset advances by 2 and all other fields are untouched. -/
theorem fileread_frame_witness :
    f10.ftype = .FD_INODE ∧ f10.readable = true ∧
      0 < rresToInt (readi dsw0 f10.ip f10.off (intToU32 2)) ∧
      (∃ f', fileread dsw0 0 f10 2 =
          some (rresToInt (readi dsw0 f10.ip f10.off (intToU32 2)), f') ∧
        f'.ftype = f10.ftype ∧ f'.ref = f10.ref ∧ f'.readable = f10.readable ∧
        f'.writable = f10.writable ∧ f'.ip = f10.ip ∧
        (rresToInt (readi dsw0 f10.ip f10.off (intToU32 2)) ≤ 0 → f'.off = f10.off) ∧
        (0 < rresToInt (readi dsw0 f10.ip f10.off (intToU32 2)) →
          f'.off = u32 (f10.off + (rresToInt (readi dsw0 f10.ip f10.off (intToU32 2))).toNat))) :=
  ⟨rfl, rfl, by decide, fileread_frame dsw0 0 f10 2 rfl rfl⟩

/-- A C `int` in `[0, 2^32)` passes to a `uint` parameter unchanged. -/
theorem intToU32_eq (m : Int) (h0 : 0 ≤ m) (h32 : m < 4294967296) :
    intToU32 m = m.toNat := by
  unfold intToU32
  omega

/-- `writei` returns through the device switch only on device-typed inodes. -/
theorem writei_dev_elim {dsw : DevSw} {maxfile : Nat} {ip : CInode} {src : Nat → Nat}
    {off n : Nat} {d : Int} (h : writei dsw maxfile ip src off n = .dev d) :
    ip.itype = T_DEV := by
  by_cases hdev : ip.itype = T_DEV
  · exact hdev
  · rw [writei, if_neg hdev] at h
    split_ifs at h <;> simp at h

/-- Everything a successful `writei` return tells us: the C return value is
the requested `n`, the bounds checks passed, and the updated inode has the
same type and major, the chunk-written content, and the possibly extended
size. -/
theorem writei_ok_elim {dsw : DevSw} {maxfile : Nat} {ip : CInode} {src : Nat → Nat}
    {off n : Nat} {cnt : Nat} {ip' : CInode} {upd : Bool}
    (h : writei dsw maxfile ip src off n = .ok cnt ip' upd) :
    cnt = n ∧ off ≤ ip.size ∧ ¬u32 (off + n) < off ∧ u32 (off + n) ≤ maxfile * BSIZE ∧
      ip'.itype = ip.itype ∧ ip'.major = ip.major ∧
      ip'.content = writeLoop ip.content src off n ∧
      ip'.size = (if 0 < n ∧ ip.size < off + n then off + n else ip.size) := by
  by_cases h1 : ip.itype = T_DEV
  · rw [writei, if_pos h1] at h
    split_ifs at h <;> simp at h
  · rw [writei, if_neg h1] at h
    by_cases h3 : ip.size < off ∨ u32 (off + n) < off
    · rw [if_pos h3] at h
      simp at h
    · rw [if_neg h3] at h
      by_cases h4 : maxfile * BSIZE < u32 (off + n)
      · rw [if_pos h4] at h
        simp at h
      · rw [if_neg h4] at h
        by_cases h5 : 0 < n ∧ ip.size < off + n
        · rw [if_pos h5] at h
          injection h with hcnt hip hupd
          subst hcnt
          subst hip
          exact ⟨rfl, by omega, fun hc => h3 (Or.inr hc), by omega, rfl, rfl, rfl,
            by rw [if_pos h5]⟩
        · rw [if_neg h5] at h
          injection h with hcnt hip hupd
          subst hcnt
          subst hip
          exact ⟨rfl, by omega, fun hc => h3 (Or.inr hc), by omega, rfl, rfl, rfl,
            by rw [if_neg h5]⟩

/-- The C return value of `writei` as stored into `r` by `filewrite`. -/
def wresToInt : WRes → Int
  | .dev d => d
  | .err => -1
  | .ok cnt _ _ => cnt

/-- The inode state after a `writei` call (unchanged unless the call
succeeded). -/
def wresIp (dflt : CInode) : WRes → CInode
  | .ok _ nip _ => nip
  | _ => dflt

/-- State threaded through `filewrite`'s chunking loop: the inode, the
handle offset `f->off`, the byte counter `i`, and the trace of per-transaction
`writei` return values (one entry per `begin_op`/`end_op` pair). -/
structure WSt where
  ip : CInode
  off : Nat
  i : Int
  chunks : List Int

/-- Outcome of one iteration of `filewrite`'s chunking loop: break out of the
loop (`r < 0`), hit the `panic("short filewrite")` (`0 ≤ r ≠ n1`), or advance
and continue. -/
inductive StepRes where
  | stop (st : WSt)
  | panicShort
  | cont (st : WSt) (r : Int)

/-- One iteration of `filewrite`'s loop (src/file.c): compute the chunk size
`n1 = min(n - i, max)`, run one transaction around `writei` at the current
offset, advance the offset by the return value when positive, and then
either break (`r < 0`), panic (`short filewrite`), or advance `i` and
continue. -/
def filewriteStep (dsw : DevSw) (maxfile mx : Nat) (src : Nat → Nat) (n : Int)
    (st : WSt) : StepRes :=
  let n1 : Int := min (n - st.i) (mx : Int)
  let wr := writei dsw maxfile st.ip (fun k => src (st.i.toNat + k)) st.off (intToU32 n1)
  let r : Int := wresToInt wr
  if r < 0 then .stop ⟨wresIp st.ip wr, if 0 < r then u32 (st.off + r.toNat) else st.off,
    st.i, st.chunks ++ [r]⟩
  else if r ≠ n1 then .panicShort
  else .cont ⟨wresIp st.ip wr, if 0 < r then u32 (st.off + r.toNat) else st.off,
    st.i + r, st.chunks ++ [r]⟩ r

/-- Case analysis of one `filewrite` loop iteration on a non-device inode:
the iteration either records a failed transaction (`writei` returned -1,
offset and counter untouched) and breaks, or performs a full chunk of
`n1 = min(n - i, max)` bytes, advancing offset and counter by `n1` and
updating the content on exactly `[off, off + n1)`. The short-write panic is
unreachable for non-device inodes. -/
theorem filewriteStep_cases (dsw : DevSw) (maxfile mx : Nat) (src : Nat → Nat) (n : Int)
    (st : WSt) (hdev : st.ip.itype ≠ T_DEV) (hlt : st.i < n) (hi0 : 0 ≤ st.i)
    (hmx : 0 < mx) (hmx32 : mx < 4294967296) (hoff32 : st.off < 4294967296) :
    filewriteStep dsw maxfile mx src n st = .stop ⟨st.ip, st.off, st.i, st.chunks ++ [-1]⟩ ∨
    (∃ ip', filewriteStep dsw maxfile mx src n st =
        .cont ⟨ip', st.off + (min (n - st.i) (mx : Int)).toNat,
          st.i + min (n - st.i) (mx : Int),
          st.chunks ++ [min (n - st.i) (mx : Int)]⟩ (min (n - st.i) (mx : Int)) ∧
      st.off + (min (n - st.i) (mx : Int)).toNat < 4294967296 ∧
      ip'.itype = st.ip.itype ∧
      ∀ j, ip'.content j =
        if st.off ≤ j ∧ j < st.off + (min (n - st.i) (mx : Int)).toNat
        then src (st.i.toNat + (j - st.off)) else st.ip.content j) := by
  have hn1a : (1 : Int) ≤ min (n - st.i) (mx : Int) := by omega
  have hn1b : min (n - st.i) (mx : Int) < 4294967296 := by omega
  have hu : intToU32 (min (n - st.i) (mx : Int)) = (min (n - st.i) (mx : Int)).toNat :=
    intToU32_eq _ (by omega) hn1b
  cases hw : writei dsw maxfile st.ip (fun k => src (st.i.toNat + k)) st.off
      (intToU32 (min (n - st.i) (mx : Int))) with
  | dev d => exact absurd (writei_dev_elim hw) hdev
  | err =>
    left
    simp only [filewriteStep]
    rw [hw]
    simp [wresToInt, wresIp]
  | ok cnt nip upd =>
    obtain ⟨hcnt, hsz, hov, hbound, hty', hmaj, hcontent, hsize⟩ := writei_ok_elim hw
    rw [hu] at hcnt hov hbound hcontent hsize
    rw [← hcnt] at hov hbound
    have hcnt32 : cnt < 4294967296 := by omega
    have hric : (cnt : Int) = min (n - st.i) (mx : Int) := by omega
    have hnw : st.off + cnt < 4294967296 := by
      have := (u32_add_lt_iff st.off cnt hoff32 hcnt32).not.mp hov
      omega
    right
    refine ⟨nip, ?_, by omega, hty', ?_⟩
    · simp only [filewriteStep]
      rw [hw]
      simp only [wresToInt, wresIp]
      rw [if_neg (by omega), if_neg (by omega), if_pos (by omega : (0 : Int) < (cnt : Int))]
      have ht : ((cnt : Int)).toNat = cnt := Int.toNat_natCast cnt
      have hu32 : u32 (st.off + cnt) = st.off + cnt := Nat.mod_eq_of_lt hnw
      rw [ht, hu32, hcnt, Int.toNat_of_nonneg (by omega : (0 : Int) ≤ min (n - st.i) (mx : Int))]
    · intro j
      rw [hcontent, writeLoop_eq]

/-- A continuing loop iteration advances the byte counter by its (positive)
chunk result; this bounds the loop. -/
theorem filewriteStep_cont_i {dsw : DevSw} {maxfile mx : Nat} {src : Nat → Nat} {n : Int}
    {st st' : WSt} {r : Int} (hmx : 0 < mx) (hlt : st.i < n)
    (hs : filewriteStep dsw maxfile mx src n st = .cont st' r) :
    st'.i = st.i + r ∧ 1 ≤ r := by
  simp only [filewriteStep] at hs
  split_ifs at hs with h1 h2 h3 h4
  all_goals try exact StepRes.noConfusion hs
  all_goals (obtain ⟨hst, hr⟩ := StepRes.cont.inj hs; subst hr; rw [← hst]; exact ⟨rfl, by omega⟩)

/-- The chunking loop of `filewrite` (src/file.c): while `i < n`, run one
transaction-wrapped `writei` chunk; break on a negative result, panic
(`none`) on a short write, and otherwise accumulate. `mx` is the computed
chunk bound `max`, positive whenever `MAXOPBLOCKS ≥ 6`. -/
def filewriteLoop (dsw : DevSw) (maxfile mx : Nat) (hmx : 0 < mx) (src : Nat → Nat)
    (n : Int) (st : WSt) : Option WSt :=
  if h : st.i < n then
    match hs : filewriteStep dsw maxfile mx src n st with
    | .stop st' => some st'
    | .panicShort => none
    | .cont st' _ => filewriteLoop dsw maxfile mx hmx src n st'
  else some st
termination_by (n - st.i).toNat
decreasing_by
  have hc := filewriteStep_cont_i hmx h hs
  omega

/-- `filewrite(f, addr, n)` from src/file.c: reject unwritable handles with
-1, delegate pipes to `pipewrite` (result `piperes`), and for inode-backed
handles split the write into chunks of at most
`max = ((MAXOPBLOCKS-1-1-2) / 2) * 512` bytes, each inside its own
transaction, returning `n` iff the loop wrote all `n` bytes and -1
otherwise. The returned list is the per-transaction trace of `writei`
results; `none` models the two panics. `maxop` stands for the `MAXOPBLOCKS`
constant of the missing param.h header. -/
def filewrite (dsw : DevSw) (piperes : Int) (maxfile maxop : Nat) (hop : 6 ≤ maxop)
    (src : Nat → Nat) (f : File) (n : Int) : Option (Int × File × List Int) :=
  if f.writable = false then some (-1, f, [])
  else if f.ftype = .FD_PIPE then some (piperes, f, [])
  else if f.ftype = .FD_INODE then
    match filewriteLoop dsw maxfile (((maxop - 1 - 1 - 2) / 2) * 512) (by omega) src n
        ⟨f.ip, f.off, 0, []⟩ with
    | none => none
    | some st =>
        some (if st.i = n then n else -1, { f with ip := st.ip, off := st.off }, st.chunks)
  else none

/-- Unfolding `filewriteLoop` when the iteration breaks. -/
theorem filewriteLoop_stop {dsw : DevSw} {maxfile mx : Nat} {hmx : 0 < mx}
    {src : Nat → Nat} {n : Int} {st st'' : WSt} (h : st.i < n)
    (hs : filewriteStep dsw maxfile mx src n st = .stop st'') :
    filewriteLoop dsw maxfile mx hmx src n st = some st'' := by
  rw [filewriteLoop, dif_pos h]
  split
  next st1 heq =>
    rw [hs] at heq
    injection heq with h2
    rw [h2]
  next heq =>
    rw [hs] at heq
    exact StepRes.noConfusion heq
  next st1 r1 heq =>
    rw [hs] at heq
    exact StepRes.noConfusion heq

/-- Unfolding `filewriteLoop` when the iteration continues. -/
theorem filewriteLoop_cont {dsw : DevSw} {maxfile mx : Nat} {hmx : 0 < mx}
    {src : Nat → Nat} {n : Int} {st st'' : WSt} {r : Int} (h : st.i < n)
    (hs : filewriteStep dsw maxfile mx src n st = .cont st'' r) :
    filewriteLoop dsw maxfile mx hmx src n st = filewriteLoop dsw maxfile mx hmx src n st'' := by
  conv_lhs => rw [filewriteLoop]
  rw [dif_pos h]
  split
  next st1 heq =>
    rw [hs] at heq
    exact StepRes.noConfusion heq
  next heq =>
    rw [hs] at heq
    exact StepRes.noConfusion heq
  next st1 r1 heq =>
    rw [hs] at heq
    injection heq with h1 h2
    rw [← h1]

/-- Invariant of `filewrite`'s chunking loop on a non-device inode: the loop
returns without panicking; the byte counter never exceeds `n`; the offset
advances by exactly the bytes written; the inode type is preserved; every
recorded transaction either failed (-1) or wrote a positive chunk of at most
`mx` bytes; the written prefix of the content equals the source bytes; and
content below the starting offset is untouched. -/
theorem filewriteLoop_spec (dsw : DevSw) (maxfile mx : Nat) (hmx : 0 < mx)
    (hmx32 : mx < 4294967296) (src : Nat → Nat) (n : Int) :
    ∀ (fuel : Nat) (st : WSt), (n - st.i).toNat ≤ fuel → st.ip.itype ≠ T_DEV →
      st.off < 4294967296 → 0 ≤ st.i → st.i ≤ n →
      ∃ st', filewriteLoop dsw maxfile mx hmx src n st = some st' ∧
        st.i ≤ st'.i ∧ st'.i ≤ n ∧
        st'.off = st.off + (st'.i - st.i).toNat ∧
        st'.ip.itype = st.ip.itype ∧
        (∃ tail, st'.chunks = st.chunks ++ tail ∧
          ∀ c ∈ tail, c = -1 ∨ (0 < c ∧ c ≤ (mx : Int))) ∧
        (∀ k : Nat, k < (st'.i - st.i).toNat →
          st'.ip.content (st.off + k) = src (st.i.toNat + k)) ∧
        (∀ j : Nat, j < st.off → st'.ip.content j = st.ip.content j) := by
  intro fuel
  induction fuel with
  | zero =>
    intro st hfuel hdev hoff hi0 hin
    have hge : ¬st.i < n := by omega
    refine ⟨st, by rw [filewriteLoop, dif_neg hge], le_refl _, hin,
      by show st.off = st.off + (st.i - st.i).toNat; omega, rfl,
      ⟨[], by simp, by simp⟩, ?_, fun j _ => rfl⟩
    intro k hk
    exact absurd hk (by show ¬k < (st.i - st.i).toNat; omega)
  | succ fuel ih =>
    intro st hfuel hdev hoff hi0 hin
    by_cases hlt : st.i < n
    · rcases filewriteStep_cases dsw maxfile mx src n st hdev hlt hi0 hmx hmx32 hoff with
        hstop | ⟨ip', hcont, hoffb, htyq, hcontq⟩
      · refine ⟨⟨st.ip, st.off, st.i, st.chunks ++ [-1]⟩, filewriteLoop_stop hlt hstop,
          le_refl _, hin, by show st.off = st.off + (st.i - st.i).toNat; omega, rfl,
          ⟨[-1], rfl, ?_⟩, ?_, fun j _ => rfl⟩
        · intro c hc
          rw [List.mem_singleton] at hc
          exact Or.inl hc
        · intro k hk
          exact absurd hk (by show ¬k < (st.i - st.i).toNat; omega)
      · have hn1a : (1 : Int) ≤ min (n - st.i) (mx : Int) := by omega
        obtain ⟨st', hloop, hii, hin', hoff', htyf, ⟨tail, htail, htailp⟩, hcontf, hframef⟩ :=
          ih ⟨ip', st.off + (min (n - st.i) (mx : Int)).toNat,
              st.i + min (n - st.i) (mx : Int),
              st.chunks ++ [min (n - st.i) (mx : Int)]⟩
            (by show (n - (st.i + min (n - st.i) (mx : Int))).toNat ≤ fuel; omega)
            (by show ip'.itype ≠ T_DEV; rw [htyq]; exact hdev)
            (by show st.off + (min (n - st.i) (mx : Int)).toNat < 4294967296; exact hoffb)
            (by show (0 : Int) ≤ st.i + min (n - st.i) (mx : Int); omega)
            (by show st.i + min (n - st.i) (mx : Int) ≤ n; omega)
        have hii' : st.i + min (n - st.i) (mx : Int) ≤ st'.i := hii
        have hoff'' : st'.off = st.off + (min (n - st.i) (mx : Int)).toNat +
            (st'.i - (st.i + min (n - st.i) (mx : Int))).toNat := hoff'
        have htyf' : st'.ip.itype = ip'.itype := htyf
        have htail' : st'.chunks = (st.chunks ++ [min (n - st.i) (mx : Int)]) ++ tail := htail
        have hcontf' : ∀ k : Nat, k < (st'.i - (st.i + min (n - st.i) (mx : Int))).toNat →
            st'.ip.content (st.off + (min (n - st.i) (mx : Int)).toNat + k) =
              src ((st.i + min (n - st.i) (mx : Int)).toNat + k) := hcontf
        have hframef' : ∀ j : Nat, j < st.off + (min (n - st.i) (mx : Int)).toNat →
            st'.ip.content j = ip'.content j := hframef
        refine ⟨st', by rw [filewriteLoop_cont hlt hcont]; exact hloop, by omega, hin', by omega,
          by rw [htyf', htyq], ⟨min (n - st.i) (mx : Int) :: tail, by rw [htail']; simp, ?_⟩,
          ?_, ?_⟩
        · intro c hc
          rcases List.mem_cons.mp hc with hc | hc
          · rw [hc]
            exact Or.inr ⟨by omega, by omega⟩
          · exact htailp c hc
        · intro k hk
          by_cases hk1 : k < (min (n - st.i) (mx : Int)).toNat
          · have h1 := hframef' (st.off + k) (by omega)
            rw [h1, hcontq (st.off + k), if_pos ⟨by omega, by omega⟩]
            congr 1
            omega
          · have h2 := hcontf' (k - (min (n - st.i) (mx : Int)).toNat) (by omega)
            have e1 : st.off + (min (n - st.i) (mx : Int)).toNat +
                (k - (min (n - st.i) (mx : Int)).toNat) = st.off + k := by omega
            have e2 : (st.i + min (n - st.i) (mx : Int)).toNat +
                (k - (min (n - st.i) (mx : Int)).toNat) = st.i.toNat + k := by omega
            rw [e1, e2] at h2
            exact h2
        · intro j hj
          rw [hframef' j (by omega), hcontq j, if_neg (by omega)]
    · refine ⟨st, by rw [filewriteLoop, dif_neg hlt], le_refl _, hin,
        by show st.off = st.off + (st.i - st.i).toNat; omega, rfl,
        ⟨[], by simp, by simp⟩, ?_, fun j _ => rfl⟩
      intro k hk
      exact absurd hk (by show ¬k < (st.i - st.i).toNat; omega)

/-- Claim C2: for an inode-backed writable handle on a non-device inode,
`filewrite(f, addr, n)` splits the write into per-transaction chunks of at
most `((MAXOPBLOCKS - 4) / 2) * BSIZE` bytes (each recorded chunk result is
either a positive count within the bound or a failed -1), advances the
handle offset by exactly the bytes written, and returns `n` if and only if
all `n` bytes were written (in which case the written range holds the source
bytes), and -1 otherwise. -/
theorem filewrite_chunked (dsw : DevSw) (piperes : Int) (maxfile maxop : Nat)
    (hop : 6 ≤ maxop) (src : Nat → Nat) (f : File) (n : Int)
    (hty : f.ftype = .FD_INODE) (hwr : f.writable = true) (hdev : f.ip.itype ≠ T_DEV)
    (hmx32 : ((maxop - 1 - 1 - 2) / 2) * 512 < 4294967296)
    (hn0 : 0 ≤ n) (hoff32 : f.off < 4294967296) :
    ∃ r f' chunks, filewrite dsw piperes maxfile maxop hop src f n = some (r, f', chunks) ∧
      (∀ c ∈ chunks, c = -1 ∨ (0 < c ∧ c ≤ ((((maxop - 4) / 2) * 512 : Nat) : Int))) ∧
      (r = n ∨ r = -1) ∧
      (r = n ↔ f'.off = f.off + n.toNat) ∧
      (r = n → ∀ k : Nat, k < n.toNat → f'.ip.content (f.off + k) = src k) ∧
      f'.ftype = f.ftype ∧ f'.readable = f.readable ∧ f'.writable = f.writable ∧
      f'.ref = f.ref := by
  obtain ⟨st', hloop, hii, hin', hoff', htyf, ⟨tail, htail, htailp⟩, hcontf, hframef⟩ :=
    filewriteLoop_spec dsw maxfile (((maxop - 1 - 1 - 2) / 2) * 512) (by omega) (by omega)
      src n n.toNat ⟨f.ip, f.off, 0, []⟩ (by show (n - 0).toNat ≤ n.toNat; omega)
      (by show f.ip.itype ≠ T_DEV; exact hdev) (by show f.off < 4294967296; exact hoff32)
      (by show (0 : Int) ≤ 0; omega) (by show (0 : Int) ≤ n; exact hn0)
  have key : ∀ hp : 0 < ((maxop - 1 - 1 - 2) / 2) * 512,
      filewriteLoop dsw maxfile (((maxop - 1 - 1 - 2) / 2) * 512) hp src n
        ⟨f.ip, f.off, 0, []⟩ = some st' := fun hp => hloop
  have hii0 : (0 : Int) ≤ st'.i := hii
  have hoff'' : st'.off = f.off + (st'.i - 0).toNat := hoff'
  have htail'' : st'.chunks = tail := by
    have h : st'.chunks = [] ++ tail := htail
    simpa using h
  have hcontf'' : ∀ k : Nat, k < (st'.i - 0).toNat →
      st'.ip.content (f.off + k) = src ((0 : Int).toNat + k) := hcontf
  refine ⟨if st'.i = n then n else -1, { f with ip := st'.ip, off := st'.off }, st'.chunks,
    ?_, ?_, ?_, ?_, ?_, rfl, rfl, rfl, rfl⟩
  · rw [filewrite, if_neg (by rw [hwr]; decide), if_neg (by rw [hty]; decide), if_pos hty, key]
  · intro c hc
    rw [htail''] at hc
    rcases htailp c hc with h | ⟨h1, h2⟩
    · exact Or.inl h
    · exact Or.inr ⟨h1, by omega⟩
  · rcases eq_or_ne st'.i n with h | h
    · rw [if_pos h]
      exact Or.inl rfl
    · rw [if_neg h]
      exact Or.inr rfl
  · constructor
    · intro hr
      have hsi : st'.i = n := by
        by_cases hq : st'.i = n
        · exact hq
        · rw [if_neg hq] at hr
          omega
      show st'.off = f.off + n.toNat
      rw [hsi] at hoff''
      omega
    · intro hoffeq
      have hoffeq' : st'.off = f.off + n.toNat := hoffeq
      have hsi : st'.i = n := by omega
      rw [if_pos hsi]
  · intro hr k hk
    have hsi : st'.i = n := by
      by_cases hq : st'.i = n
      · exact hq
      · rw [if_neg hq] at hr
        omega
    have h := hcontf'' k (by omega)
    show st'.ip.content (f.off + k) = src k
    rw [h]
    congr 1
    omega

/-- A concrete writable inode-backed handle over a fresh empty file. -/
def f2 : File := ⟨.FD_INODE, 1, false, true, ⟨T_FILE, 0, 0, fun _ => 0⟩, 0⟩

/-- Witness for C2: writing 2000 bytes to the empty file `f2` with
`MAXOPBLOCKS = 10` (chunk bound 1536) splits into transactions of at most
1536 bytes and returns 2000 exactly when the offset advanced by 2000. -/
theorem filewrite_chunked_witness :
    f2.ftype = .FD_INODE ∧ f2.writable = true ∧ f2.ip.itype ≠ T_DEV ∧
      (∃ r f' chunks, filewrite dsw0 0 140 10 (by omega) (fun k => k) f2 2000 =
          some (r, f', chunks) ∧
        (∀ c ∈ chunks, c = -1 ∨ (0 < c ∧ c ≤ ((((10 - 4) / 2) * 512 : Nat) : Int))) ∧
        (r = 2000 ∨ r = -1) ∧
        (r = 2000 ↔ f'.off = f2.off + (2000 : Int).toNat) ∧
        (r = 2000 → ∀ k : Nat, k < (2000 : Int).toNat →
          f'.ip.content (f2.off + k) = (fun k => k) k) ∧
        f'.ftype = f2.ftype ∧ f'.readable = f2.readable ∧ f'.writable = f2.writable ∧
        f'.ref = f2.ref) :=
  ⟨rfl, rfl, by decide,
    filewrite_chunked dsw0 0 140 10 (by omega) (fun k => k) f2 2000 rfl rfl (by decide)
      (by decide) (by decide) (by decide)⟩

/-- xv6 `strncmp(p, q, n)` over byte lists (the end of a list is the string's
NUL terminator, so out-of-range reads yield 0): compare while bytes are
equal and nonzero, up to `n` bytes. -/
def strncmp (n : Nat) (p q : List Nat) : Int :=
  match n with
  | 0 => 0
  | Nat.succ n' =>
    if p.headD 0 ≠ 0 ∧ p.headD 0 = q.headD 0 then strncmp n' p.tail q.tail
    else (p.headD 0 : Int) - (q.headD 0 : Int)

/-- xv6 `strncpy(s, t, n)` restricted to its effect on the destination's
first `n` bytes: copy up to `n` bytes of `t` and zero-pad the rest, as
`dirlink` does into a directory entry's name field. -/
def strncpyPad (n : Nat) (t : List Nat) : List Nat :=
  t.take n ++ List.replicate (n - t.length) 0

/-- A directory entry (struct dirent): inumber (0 marks an empty slot) and
the stored name bytes. -/
structure Dirent where
  inum : Nat
  name : List Nat
deriving DecidableEq

/-- Entry of a directory's entry list at a slot index (arbitrary fixed
default out of range). -/
def nthEnt (l : List Dirent) (k : Nat) : Dirent := l.getD k ⟨0, []⟩

/-- `dirlookup(dp, name, poff)` from fs.c over the directory's entry list
(each slot is one `sizeof(de)`-sized record read through `readi`): scan in
order, skip slots with inumber 0, and return the inumber and slot index of
the first entry whose name matches `name` under `namecmp`
(`strncmp` bounded by `DIRSIZ`). -/
def dirlookupEnt (dirsiz : Nat) (name : List Nat) : List Dirent → Option (Nat × Nat)
  | [] => none
  | de :: rest =>
    if de.inum = 0 then (dirlookupEnt dirsiz name rest).map (fun p => (p.1, p.2 + 1))
    else if strncmp dirsiz name de.name = 0 then some (de.inum, 0)
    else (dirlookupEnt dirsiz name rest).map (fun p => (p.1, p.2 + 1))

/-- The scan of `dirlink` for the first empty slot (inumber 0). -/
def findEmptyEnt : List Dirent → Option Nat
  | [] => none
  | de :: rest => if de.inum = 0 then some 0 else (findEmptyEnt rest).map (· + 1)

/-- Result of `dirlink`: the -1 duplicate-name error (recording the inumber
of the found entry, which is `iput` back), or success (the C return value 0)
with the updated entry list. -/
inductive DLRes where
  | dup (released : Nat)
  | okDL (entries : List Dirent)
deriving DecidableEq

/-- `dirlink(dp, name, inum)` from fs.c: fail if `name` is already present
(releasing the inode `dirlookup` found); otherwise write the new entry —
name copied with `strncpy` bounded by `DIRSIZ` — into the first slot whose
inumber is 0, or append it at the directory's end if every slot is in use. -/
def dirlink (dirsiz : Nat) (entries : List Dirent) (name : List Nat) (inum : Nat) : DLRes :=
  match dirlookupEnt dirsiz name entries with
  | some (fi, _) => .dup fi
  | none =>
    match findEmptyEnt entries with
    | some off => .okDL (entries.set off ⟨inum, strncpyPad dirsiz name⟩)
    | none => .okDL (entries ++ [⟨inum, strncpyPad dirsiz name⟩])

/-- `dirlookup` finds an entry iff a non-empty slot with a matching name is
present. -/
theorem dirlookupEnt_isSome_iff (dirsiz : Nat) (name : List Nat) :
    ∀ entries : List Dirent, (dirlookupEnt dirsiz name entries).isSome ↔
      ∃ de ∈ entries, de.inum ≠ 0 ∧ strncmp dirsiz name de.name = 0 := by
  intro entries
  induction entries with
  | nil => simp [dirlookupEnt]
  | cons de rest ih =>
    rw [dirlookupEnt]
    by_cases h0 : de.inum = 0
    · rw [if_pos h0]
      simp only [Option.isSome_map']
      rw [ih]
      constructor
      · rintro ⟨de', hmem, hprops⟩
        exact ⟨de', List.mem_cons_of_mem _ hmem, hprops⟩
      · rintro ⟨de', hmem, hprops⟩
        rcases List.mem_cons.mp hmem with heq | hmem'
        · exact absurd h0 (heq ▸ hprops).1
        · exact ⟨de', hmem', hprops⟩
    · rw [if_neg h0]
      by_cases hm : strncmp dirsiz name de.name = 0
      · rw [if_pos hm]
        simp only [Option.isSome_some, true_iff]
        exact ⟨de, List.mem_cons_self de rest, h0, hm⟩
      · rw [if_neg hm]
        simp only [Option.isSome_map']
        rw [ih]
        constructor
        · rintro ⟨de', hmem, hprops⟩
          exact ⟨de', List.mem_cons_of_mem _ hmem, hprops⟩
        · rintro ⟨de', hmem, hprops⟩
          rcases List.mem_cons.mp hmem with heq | hmem'
          · subst heq
            exact absurd hprops.2 hm
          · exact ⟨de', hmem', hprops⟩

/-- When `dirlink`'s scan finds an empty slot, it is the first slot whose
inumber is 0. -/
theorem findEmptyEnt_some : ∀ (entries : List Dirent) (off : Nat),
    findEmptyEnt entries = some off → off < entries.length ∧ (nthEnt entries off).inum = 0 ∧
      ∀ k, k < off → (nthEnt entries k).inum ≠ 0 := by
  intro entries
  induction entries with
  | nil => intro off h; simp [findEmptyEnt] at h
  | cons de rest ih =>
    intro off h
    rw [findEmptyEnt] at h
    by_cases h0 : de.inum = 0
    · rw [if_pos h0] at h
      injection h with h1
      subst h1
      exact ⟨by simp, h0, fun k hk => absurd hk (by omega)⟩
    · rw [if_neg h0] at h
      rcases hr : findEmptyEnt rest with _ | off'
      · rw [hr] at h
        simp at h
      · rw [hr] at h
        simp at h
        obtain ⟨ha, hb, hc⟩ := ih off' hr
        subst h
        refine ⟨by simp; omega, ?_, ?_⟩
        · show (nthEnt rest off').inum = 0
          exact hb
        · intro k hk
          match k with
          | 0 => exact h0
          | Nat.succ k' =>
            show (nthEnt rest k').inum ≠ 0
            exact hc k' (by omega)

/-- When `dirlink`'s scan finds no empty slot, every slot is in use. -/
theorem findEmptyEnt_none : ∀ entries : List Dirent, findEmptyEnt entries = none →
    ∀ de ∈ entries, de.inum ≠ 0 := by
  intro entries
  induction entries with
  | nil => intro _ de hde; simp at hde
  | cons de rest ih =>
    intro h de' hde'
    rw [findEmptyEnt] at h
    by_cases h0 : de.inum = 0
    · rw [if_pos h0] at h
      exact absurd h (by simp)
    · rw [if_neg h0] at h
      rcases List.mem_cons.mp hde' with heq | hmem
      · rw [heq]
        exact h0
      · rcases hr : findEmptyEnt rest with _ | off'
        · exact ih hr de' hmem
        · rw [hr] at h
          simp at h

/-- Claim C6: `dirlink(dp, name, inum)` errors (releasing the inode that
`dirlookup` found) if and only if `name` is already present in a non-empty
slot of `dp`; otherwise it returns 0, writing the new entry into the first
slot whose inumber is 0, or appending it at the directory's end when no
empty slot exists. -/
theorem dirlink_dup_or_slot (dirsiz : Nat) (entries : List Dirent) (name : List Nat)
    (inum : Nat) :
    ((∃ fi, dirlink dirsiz entries name inum = .dup fi) ↔
      ∃ de ∈ entries, de.inum ≠ 0 ∧ strncmp dirsiz name de.name = 0) ∧
    (∀ fi off, dirlookupEnt dirsiz name entries = some (fi, off) →
      dirlink dirsiz entries name inum = .dup fi) ∧
    (dirlookupEnt dirsiz name entries = none →
      (∀ off, findEmptyEnt entries = some off →
        off < entries.length ∧ (nthEnt entries off).inum = 0 ∧
        (∀ k, k < off → (nthEnt entries k).inum ≠ 0) ∧
        dirlink dirsiz entries name inum =
          .okDL (entries.set off ⟨inum, strncpyPad dirsiz name⟩)) ∧
      (findEmptyEnt entries = none →
        (∀ de ∈ entries, de.inum ≠ 0) ∧
        dirlink dirsiz entries name inum =
          .okDL (entries ++ [⟨inum, strncpyPad dirsiz name⟩]))) := by
  refine ⟨?_, ?_, ?_⟩
  · rw [← dirlookupEnt_isSome_iff]
    constructor
    · rintro ⟨fi, hfi⟩
      rcases hl : dirlookupEnt dirsiz name entries with _ | ⟨fi', off'⟩
      · rcases hfe : findEmptyEnt entries with _ | off <;>
          simp [dirlink, hl, hfe] at hfi
      · simp [hl]
    · intro hsome
      rcases ho : dirlookupEnt dirsiz name entries with _ | ⟨fi', off'⟩
      · rw [ho] at hsome
        simp at hsome
      · exact ⟨fi', by rw [dirlink, ho]⟩
  · intro fi off h
    rw [dirlink, h]
  · intro hnone
    constructor
    · intro off hfe
      obtain ⟨h1, h2, h3⟩ := findEmptyEnt_some entries off hfe
      exact ⟨h1, h2, h3, by rw [dirlink, hnone, hfe]⟩
    · intro hfe
      exact ⟨findEmptyEnt_none entries hfe, by rw [dirlink, hnone, hfe]⟩

/-- Concrete directory contents: a used slot, an empty slot, a used slot. -/
def ents6 : List Dirent :=
  [⟨7, strncpyPad 14 [97]⟩, ⟨0, strncpyPad 14 []⟩, ⟨8, strncpyPad 14 [98]⟩]

/-- Witness for C6: linking the absent name `[99]` into `ents6` writes the
new entry into slot 1 (the first with inumber 0) and returns success. -/
theorem dirlink_dup_or_slot_witness :
    dirlookupEnt 14 [99] ents6 = none ∧ findEmptyEnt ents6 = some 1 ∧
      dirlink 14 ents6 [99] 9 = .okDL (ents6.set 1 ⟨9, strncpyPad 14 [99]⟩) :=
  ⟨by decide, by decide,
    ((((dirlink_dup_or_slot 14 ents6 [99] 9).2.2 (by decide)).1 1 (by decide)).2.2.2)⟩

/-- The `while(*path == '/') path++` loops of `skipelem` (47 is '/'; the end
of the list is the string's NUL terminator). -/
def dropSlashes : List Nat → List Nat
  | [] => []
  | c :: cs => if c = 47 then dropSlashes cs else c :: cs

/-- The element scan `while(*path != '/' && *path != 0) path++` of
`skipelem`, returning the element's bytes. -/
def takeElem : List Nat → List Nat
  | [] => []
  | c :: cs => if c ≠ 47 ∧ c ≠ 0 then c :: takeElem cs else []

/-- The element scan of `skipelem`, returning the rest of the path after the
element. -/
def dropElem : List Nat → List Nat
  | [] => []
  | c :: cs => if c ≠ 47 ∧ c ≠ 0 then dropElem cs else c :: cs

/-- `skipelem(path, name)` from fs.c: strip leading slashes; return null
(`none`) if nothing remains; otherwise scan the next element, copy it into
`name` — `DIRSIZ` bytes without a null terminator when the element has
`DIRSIZ` bytes or more, the element plus a null terminator when shorter —
skip trailing slashes and return the remainder. The returned pair is
(bytes written to `name`, remainder pointer). -/
def skipelem (dirsiz : Nat) (path : List Nat) : Option (List Nat × List Nat) :=
  if (dropSlashes path).headD 0 = 0 then none
  else
    some
      (if dirsiz ≤ (takeElem (dropSlashes path)).length
        then (takeElem (dropSlashes path)).take dirsiz
        else takeElem (dropSlashes path) ++ [0],
      dropSlashes (dropElem (dropSlashes path)))

/-- The behaviour of `skipelem` in the spec's words, phrased with the
standard `takeWhile`/`dropWhile` decomposition of the path. -/
def skipelemSpec (dirsiz : Nat) (path : List Nat) : Option (List Nat × List Nat) :=
  match path.dropWhile (fun c => c == 47) with
  | [] => none
  | p1 =>
    some
      (if dirsiz ≤ (p1.takeWhile (fun c => c != 47)).length
        then (p1.takeWhile (fun c => c != 47)).take dirsiz
        else p1.takeWhile (fun c => c != 47) ++ [0],
      (p1.dropWhile (fun c => c != 47)).dropWhile (fun c => c == 47))

/-- On NUL-free byte lists, the leading-slash loop is `dropWhile`. -/
theorem dropSlashes_eq : ∀ l : List Nat, dropSlashes l = l.dropWhile (fun c => c == 47) := by
  intro l
  induction l with
  | nil => rfl
  | cons c cs ih =>
    rw [dropSlashes, List.dropWhile_cons]
    by_cases h : c = 47
    · rw [if_pos h, if_pos (by simp [h])]
      exact ih
    · rw [if_neg h, if_neg (by simp [h])]

/-- On NUL-free byte lists, the element scan is `takeWhile`. -/
theorem takeElem_eq : ∀ l : List Nat, 0 ∉ l →
    takeElem l = l.takeWhile (fun c => c != 47) := by
  intro l
  induction l with
  | nil => intro _; rfl
  | cons c cs ih =>
    intro h0
    have hc : c ≠ 0 := fun hc => h0 (by rw [hc]; exact List.mem_cons_self _ _)
    rw [takeElem, List.takeWhile_cons]
    by_cases h : c = 47
    · rw [if_neg (by simp [h]), if_neg (by simp [h])]
    · rw [if_pos ⟨h, hc⟩, if_pos (by simp [h])]
      rw [ih (fun hm => h0 (List.mem_cons_of_mem _ hm))]

/-- On NUL-free byte lists, the element scan's remainder is `dropWhile`. -/
theorem dropElem_eq : ∀ l : List Nat, 0 ∉ l →
    dropElem l = l.dropWhile (fun c => c != 47) := by
  intro l
  induction l with
  | nil => intro _; rfl
  | cons c cs ih =>
    intro h0
    have hc : c ≠ 0 := fun hc => h0 (by rw [hc]; exact List.mem_cons_self _ _)
    rw [dropElem, List.dropWhile_cons]
    by_cases h : c = 47
    · rw [if_neg (by simp [h]), if_neg (by simp [h])]
    · rw [if_pos ⟨h, hc⟩, if_pos (by simp [h])]
      exact ih (fun hm => h0 (List.mem_cons_of_mem _ hm))

/-- Claim C7: on any NUL-free path, `skipelem` strips leading slashes,
returns null when no component remains, and otherwise copies the next
element into `name` (truncated to `DIRSIZ` bytes without a terminator when
the element has at least `DIRSIZ` bytes, null-terminated when shorter),
skips trailing slashes, and returns the remainder — the spec's
`takeWhile`/`dropWhile` characterization. -/
theorem skipelem_spec (dirsiz : Nat) (path : List Nat) (h0 : 0 ∉ path) :
    skipelem dirsiz path = skipelemSpec dirsiz path := by
  have h0' : 0 ∉ path.dropWhile (fun c => c == 47) :=
    fun hm => h0 ((List.dropWhile_sublist _ (l := path)).subset hm)
  rw [skipelem, skipelemSpec]
  rw [dropSlashes_eq]
  rcases hp : path.dropWhile (fun c => c == 47) with _ | ⟨c, cs⟩
  · rfl
  · rw [hp] at h0'
    have hc : c ≠ 0 := fun hcc => h0' (by rw [hcc]; exact List.mem_cons_self _ _)
    rw [if_neg (by simpa using hc)]
    rw [takeElem_eq _ h0', dropElem_eq _ h0', dropSlashes_eq]

/-- Witness for C7: on the path `"a//bb"` the parser and the spec's
characterization agree (name `[97, 0]`, remainder `[98, 98]`). -/
theorem skipelem_spec_witness :
    (0 : Nat) ∉ ([97, 47, 47, 98, 98] : List Nat) ∧
      skipelem 14 [97, 47, 47, 98, 98] = skipelemSpec 14 [97, 47, 47, 98, 98] :=
  ⟨by decide, skipelem_spec 14 [97, 47, 47, 98, 98] (by decide)⟩

/-- In-memory inode as seen by the cache layer (struct inode): identity
(device, inumber), the `icache.lock`-protected reference count, the
sleep-lock-protected `valid` flag and cached disk fields. -/
structure CacheInode where
  dev : Nat
  inum : Nat
  ref : Int
  valid : Nat
  itype : Nat
  major : Int
  minor : Int
  nlink : Nat
  size : Nat
  addrs : List Nat
deriving DecidableEq

/-- Slot of the inode-cache table at an index (arbitrary fixed default out
of range). -/
def nthSlot (l : List CacheInode) (k : Nat) : CacheInode :=
  l.getD k ⟨0, 0, 0, 0, 0, 0, 0, 0, 0, []⟩

/-- The cache-hit scan of `iget`: first slot with `ref > 0` and matching
(device, inumber). -/
def findMatch (dev inum : Nat) : List CacheInode → Option Nat
  | [] => none
  | s :: rest =>
    if 0 < s.ref ∧ s.dev = dev ∧ s.inum = inum then some 0
    else (findMatch dev inum rest).map (· + 1)

/-- The recycling scan of `iget`: first slot with `ref == 0`. -/
def findEmptySlot : List CacheInode → Option Nat
  | [] => none
  | s :: rest => if s.ref = 0 then some 0 else (findEmptySlot rest).map (· + 1)

/-- `iget(dev, inum)` from fs.c over the `icache.inode` table: on a hit
(matching identity with `ref > 0`) increment that slot's `ref`; on a miss
claim the first slot with `ref == 0`, setting identity, `ref = 1`,
`valid = 0`, without touching the disk; `none` models
`panic("iget: no inodes")`. The C code computes both scans in one pass;
because it returns at the first hit and uses the remembered slot only when
no hit exists, the two-scan form returns the same slot. -/
def iget (dev inum : Nat) (slots : List CacheInode) : Option (List CacheInode × Nat) :=
  match findMatch dev inum slots with
  | some i => some (slots.set i { nthSlot slots i with ref := (nthSlot slots i).ref + 1 }, i)
  | none =>
    match findEmptySlot slots with
    | some j => some (slots.set j
        { nthSlot slots j with dev := dev, inum := inum, ref := 1, valid := 0 }, j)
    | none => none

/-- Identity uniqueness of the inode cache: no two distinct slots with
`ref > 0` hold the same (device, inumber). -/
def IdUniq (slots : List CacheInode) : Prop :=
  ∀ i, i < slots.length → ∀ j, j < slots.length → i ≠ j →
    0 < (nthSlot slots i).ref → 0 < (nthSlot slots j).ref →
    ¬((nthSlot slots i).dev = (nthSlot slots j).dev ∧
      (nthSlot slots i).inum = (nthSlot slots j).inum)

/-- A successful hit scan returns a slot with `ref > 0` and the wanted
identity. -/
theorem findMatch_some (dev inum : Nat) : ∀ (slots : List CacheInode) (i : Nat),
    findMatch dev inum slots = some i → i < slots.length ∧ 0 < (nthSlot slots i).ref ∧
      (nthSlot slots i).dev = dev ∧ (nthSlot slots i).inum = inum := by
  intro slots
  induction slots with
  | nil => intro i h; simp [findMatch] at h
  | cons s rest ih =>
    intro i h
    rw [findMatch] at h
    by_cases hm : 0 < s.ref ∧ s.dev = dev ∧ s.inum = inum
    · rw [if_pos hm] at h
      injection h with h1
      subst h1
      exact ⟨by simp, hm.1, hm.2.1, hm.2.2⟩
    · rw [if_neg hm] at h
      rcases hr : findMatch dev inum rest with _ | i'
      · rw [hr] at h
        simp at h
      · rw [hr] at h
        simp at h
        subst h
        obtain ⟨ha, hb, hc, hd⟩ := ih i' hr
        have hsucc : nthSlot (s :: rest) (i' + 1) = nthSlot rest i' := by
          simp [nthSlot, List.getD_cons_succ]
        exact ⟨by simp; omega, by rw [hsucc]; exact hb, by rw [hsucc]; exact hc,
          by rw [hsucc]; exact hd⟩

/-- A failed hit scan means no slot with `ref > 0` holds the wanted
identity. -/
theorem findMatch_none (dev inum : Nat) : ∀ slots : List CacheInode,
    findMatch dev inum slots = none → ∀ k, k < slots.length →
      ¬(0 < (nthSlot slots k).ref ∧ (nthSlot slots k).dev = dev ∧
        (nthSlot slots k).inum = inum) := by
  intro slots
  induction slots with
  | nil => intro _ k hk; simp at hk
  | cons s rest ih =>
    intro h k hk
    rw [findMatch] at h
    by_cases hm : 0 < s.ref ∧ s.dev = dev ∧ s.inum = inum
    · rw [if_pos hm] at h
      exact absurd h (by simp)
    · rw [if_neg hm] at h
      rcases hr : findMatch dev inum rest with _ | i'
      · match k with
        | 0 => exact hm
        | Nat.succ k' =>
          have hsucc : nthSlot (s :: rest) (k' + 1) = nthSlot rest k' := by
            simp [nthSlot, List.getD_cons_succ]
          rw [hsucc]
          exact ih hr k' (by simp at hk; omega)
      · rw [hr] at h
        simp at h

/-- A successful recycling scan returns a slot with `ref == 0`. -/
theorem findEmptySlot_some : ∀ (slots : List CacheInode) (j : Nat),
    findEmptySlot slots = some j → j < slots.length ∧ (nthSlot slots j).ref = 0 := by
  intro slots
  induction slots with
  | nil => intro j h; simp [findEmptySlot] at h
  | cons s rest ih =>
    intro j h
    rw [findEmptySlot] at h
    by_cases h0 : s.ref = 0
    · rw [if_pos h0] at h
      injection h with h1
      subst h1
      exact ⟨by simp, h0⟩
    · rw [if_neg h0] at h
      rcases hr : findEmptySlot rest with _ | j'
      · rw [hr] at h
        simp at h
      · rw [hr] at h
        simp at h
        subst h
        obtain ⟨ha, hb⟩ := ih j' hr
        have hsucc : nthSlot (s :: rest) (j' + 1) = nthSlot rest j' := by
          simp [nthSlot, List.getD_cons_succ]
        exact ⟨by simp; omega, by rw [hsucc]; exact hb⟩


/-- Reading an untouched slot of an updated cache table. -/
theorem nthSlot_set_ne (slots : List CacheInode) (i k : Nat) (x : CacheInode) (h : k ≠ i) :
    nthSlot (slots.set i x) k = nthSlot slots k := by
  simp [nthSlot, List.getD_eq_getElem?_getD, List.getElem?_set_ne (Ne.symm h)]

/-- Reading the updated slot of an updated cache table. -/
theorem nthSlot_set_self (slots : List CacheInode) (i : Nat) (x : CacheInode)
    (h : i < slots.length) : nthSlot (slots.set i x) i = x := by
  simp [nthSlot, List.getD_eq_getElem?_getD, List.getElem?_set_self, h]

/-- Overwriting a slot with one of the same identity (and no larger
liveness) preserves identity uniqueness. -/
theorem IdUniq_set_same (slots : List CacheInode) (i : Nat) (x : CacheInode)
    (hi : i < slots.length) (hdev0 : x.dev = (nthSlot slots i).dev)
    (hinum0 : x.inum = (nthSlot slots i).inum)
    (href : 0 < x.ref → 0 < (nthSlot slots i).ref)
    (huniq : IdUniq slots) : IdUniq (slots.set i x) := by
  intro a ha b hb hab hra hrb
  rw [List.length_set] at ha hb
  by_cases hai : a = i
  · have hbi : b ≠ i := fun hc => hab (hai.trans hc.symm)
    rw [hai, nthSlot_set_self slots i x hi, nthSlot_set_ne slots i b x hbi]
    rw [hai, nthSlot_set_self slots i x hi] at hra
    rw [nthSlot_set_ne slots i b x hbi] at hrb
    rintro ⟨hdev, hinum⟩
    exact huniq i hi b hb (fun hc => hab (hai.trans hc)) (href hra) hrb
      ⟨hdev0.symm.trans hdev, hinum0.symm.trans hinum⟩
  · by_cases hbi : b = i
    · rw [hbi, nthSlot_set_self slots i x hi, nthSlot_set_ne slots i a x hai]
      rw [hbi, nthSlot_set_self slots i x hi] at hrb
      rw [nthSlot_set_ne slots i a x hai] at hra
      rintro ⟨hdev, hinum⟩
      exact huniq a ha i hi (fun hc => hab (hc.trans hbi.symm)) hra (href hrb)
        ⟨hdev.trans hdev0, hinum.trans hinum0⟩
    · rw [nthSlot_set_ne slots i a x hai, nthSlot_set_ne slots i b x hbi]
      rw [nthSlot_set_ne slots i a x hai] at hra
      rw [nthSlot_set_ne slots i b x hbi] at hrb
      exact huniq a ha b hb hab hra hrb

/-- Claiming a slot with an identity held by no live slot preserves identity
uniqueness. -/
theorem IdUniq_set_fresh (slots : List CacheInode) (j : Nat) (x : CacheInode)
    (hj : j < slots.length)
    (hnone : ∀ k, k < slots.length → ¬(0 < (nthSlot slots k).ref ∧
      (nthSlot slots k).dev = x.dev ∧ (nthSlot slots k).inum = x.inum))
    (huniq : IdUniq slots) : IdUniq (slots.set j x) := by
  intro a ha b hb hab hra hrb
  rw [List.length_set] at ha hb
  by_cases haj : a = j
  · have hbj : b ≠ j := fun hc => hab (haj.trans hc.symm)
    rw [haj, nthSlot_set_self slots j x hj, nthSlot_set_ne slots j b x hbj]
    rw [nthSlot_set_ne slots j b x hbj] at hrb
    rintro ⟨hdev, hinum⟩
    exact hnone b hb ⟨hrb, hdev.symm, hinum.symm⟩
  · by_cases hbj : b = j
    · rw [hbj, nthSlot_set_self slots j x hj, nthSlot_set_ne slots j a x haj]
      rw [nthSlot_set_ne slots j a x haj] at hra
      rintro ⟨hdev, hinum⟩
      exact hnone a ha ⟨hra, hdev, hinum⟩
    · rw [nthSlot_set_ne slots j a x haj, nthSlot_set_ne slots j b x hbj]
      rw [nthSlot_set_ne slots j a x haj] at hra
      rw [nthSlot_set_ne slots j b x hbj] at hrb
      exact huniq a ha b hb hab hra hrb

/-- Claim C8: `iget` preserves identity uniqueness of the inode cache — no
two slots with `ref > 0` ever share (device, inumber). On a hit it only
increments the matched slot's `ref`; on a miss (no slot with `ref > 0`
matches) it claims a slot whose `ref` was 0, setting identity, `ref = 1`,
`valid = 0`, without touching the disk; all other slots are untouched. -/
theorem iget_identity_unique (dev inum : Nat) (slots : List CacheInode)
    (huniq : IdUniq slots) :
    ∀ slots' idx, iget dev inum slots = some (slots', idx) →
      IdUniq slots' ∧ idx < slots.length ∧ slots'.length = slots.length ∧
      (∀ k, k < slots.length → k ≠ idx → nthSlot slots' k = nthSlot slots k) ∧
      ((0 < (nthSlot slots idx).ref ∧ (nthSlot slots idx).dev = dev ∧
          (nthSlot slots idx).inum = inum ∧
          nthSlot slots' idx = { nthSlot slots idx with ref := (nthSlot slots idx).ref + 1 }) ∨
        ((nthSlot slots idx).ref = 0 ∧
          (∀ k, k < slots.length →
            ¬(0 < (nthSlot slots k).ref ∧ (nthSlot slots k).dev = dev ∧
              (nthSlot slots k).inum = inum)) ∧
          nthSlot slots' idx =
            { nthSlot slots idx with dev := dev, inum := inum, ref := 1, valid := 0 })) := by
  intro slots' idx h
  rw [iget] at h
  rcases hm : findMatch dev inum slots with _ | i
  · rw [hm] at h
    rcases he : findEmptySlot slots with _ | j
    · rw [he] at h
      simp at h
    · rw [he] at h
      injection h with h1
      injection h1 with h1 h2
      subst h2
      subst h1
      obtain ⟨hj, hj0⟩ := findEmptySlot_some slots j he
      have hnone := findMatch_none dev inum slots hm
      refine ⟨IdUniq_set_fresh slots j
        { nthSlot slots j with dev := dev, inum := inum, ref := 1, valid := 0 } hj
        (fun k hk => hnone k hk) huniq, hj, by simp,
        fun k _ hk => nthSlot_set_ne slots j k _ hk,
        Or.inr ⟨hj0, hnone, nthSlot_set_self slots j _ hj⟩⟩
  · rw [hm] at h
    injection h with h1
    injection h1 with h1 h2
    subst h2
    subst h1
    obtain ⟨hi, hiref, hidev, hiinum⟩ := findMatch_some dev inum slots i hm
    refine ⟨IdUniq_set_same slots i
      { nthSlot slots i with ref := (nthSlot slots i).ref + 1 } hi rfl rfl
      (fun _ => hiref) huniq, hi, by simp,
      fun k _ hk => nthSlot_set_ne slots i k _ hk,
      Or.inl ⟨hiref, hidev, hiinum, nthSlot_set_self slots i _ hi⟩⟩

instance (l : List CacheInode) : Decidable (IdUniq l) :=
  decidable_of_iff
    (∀ i ∈ List.range l.length, ∀ j ∈ List.range l.length,
      ¬(i ≠ j ∧ 0 < (nthSlot l i).ref ∧ 0 < (nthSlot l j).ref ∧
        (nthSlot l i).dev = (nthSlot l j).dev ∧ (nthSlot l i).inum = (nthSlot l j).inum))
    (by
      constructor
      · intro h i hi j hj hij hri hrj hid
        exact h i (List.mem_range.mpr hi) j (List.mem_range.mpr hj)
          ⟨hij, hri, hrj, hid.1, hid.2⟩
      · intro h i hi j hj
        rintro ⟨hij, hri, hrj, hdev, hinum⟩
        exact h i (List.mem_range.mp hi) j (List.mem_range.mp hj) hij hri hrj ⟨hdev, hinum⟩)

/-- A concrete two-slot cache: one live inode (1, 5), one free slot. -/
def slots8 : List CacheInode :=
  [⟨1, 5, 1, 1, 2, 0, 0, 1, 0, []⟩, ⟨0, 0, 0, 0, 0, 0, 0, 0, 0, []⟩]

/-- Witness for C8: getting (1, 7) misses in `slots8`, claims the free slot 1
with identity (1, 7), `ref = 1`, `valid = 0`, and uniqueness is preserved. -/
theorem iget_identity_unique_witness :
    IdUniq slots8 ∧
      iget 1 7 slots8 =
        some (slots8.set 1 { nthSlot slots8 1 with dev := 1, inum := 7, ref := 1, valid := 0 },
          1) ∧
      IdUniq (slots8.set 1 { nthSlot slots8 1 with dev := 1, inum := 7, ref := 1, valid := 0 }) :=
  ⟨by decide, by decide,
    (iget_identity_unique 1 7 slots8 (by decide)
        (slots8.set 1 { nthSlot slots8 1 with dev := 1, inum := 7, ref := 1, valid := 0 }) 1
        (by decide)).1⟩

/-- On-disk inode record (struct dinode): type (0 = free), device numbers,
link count, byte size, and the `NDIRECT + 1` block addresses. -/
structure DInode where
  dtype : Nat
  major : Int
  minor : Int
  nlink : Nat
  size : Nat
  addrs : List Nat
deriving DecidableEq

/-- `iupdate(ip)` from fs.c: copy the cached fields into the on-disk inode
slot for `ip->inum` (one device; the disk's inode array is indexed by
inumber) and log-write its block. -/
def iupdate (ip : CacheInode) (disk : List DInode) : List DInode :=
  disk.set ip.inum ⟨ip.itype, ip.major, ip.minor, ip.nlink, ip.size, ip.addrs⟩

/-- `itrunc(ip)` from fs.c: free (`bfree`) every non-zero direct address and
clear it; if the indirect slot is non-zero, free its non-zero entries (read
from the indirect block, the parameter `ind`) and the indirect block itself
and clear the slot; set size to 0 and `iupdate`. Returns the new in-memory
inode, the disk after the write-through, and the freed block numbers in
order. `ndirect` stands for the `NDIRECT` constant of the missing fs.h. -/
def itrunc (ndirect : Nat) (ind : List Nat) (ip : CacheInode) (disk : List DInode) :
    CacheInode × List DInode × List Nat :=
  let freedDirect := (ip.addrs.take ndirect).filter (fun a => a ≠ 0)
  let indSlot := ip.addrs.getD ndirect 0
  let freedInd := if indSlot ≠ 0 then ind.filter (fun a => a ≠ 0) ++ [indSlot] else []
  let ip' : CacheInode := { ip with addrs := List.replicate ip.addrs.length 0, size := 0 }
  (ip', iupdate ip' disk, freedDirect ++ freedInd)

/-- `iput(ip)` from fs.c: under the sleep-lock, when the inode is loaded
(`valid`), unlinked (`nlink == 0`) and this is the last reference
(`ref == 1`), truncate the content, clear the type, write the inode through
and clear `valid`; in every case decrement `ref` afterwards. Returns the new
in-memory inode, the disk, and the freed block numbers. -/
def iput (ndirect : Nat) (ind : List Nat) (ip : CacheInode) (disk : List DInode) :
    CacheInode × List DInode × List Nat :=
  if ip.valid ≠ 0 ∧ ip.nlink = 0 then
    if ip.ref = 1 then
      let t := itrunc ndirect ind ip disk
      let ip2 : CacheInode := { t.1 with itype := 0 }
      let disk2 := iupdate ip2 t.2.1
      let ip3 : CacheInode := { ip2 with valid := 0 }
      ({ ip3 with ref := ip3.ref - 1 }, disk2, t.2.2)
    else ({ ip with ref := ip.ref - 1 }, disk, [])
  else ({ ip with ref := ip.ref - 1 }, disk, [])

/-- Claim C4: for an in-memory inode with `valid` set, `nlink == 0` and
`ref == 1`, `iput` truncates the content (size 0, addresses cleared, blocks
freed), clears the type, writes the inode through to disk (`iupdate`), and
clears `valid`, finally decrementing `ref` to 0; for any inode not meeting
these conditions, `iput` only decrements `ref`, leaving every other field,
the disk, and the free list untouched. -/
theorem iput_last_reference (ndirect : Nat) (ind : List Nat) (ip : CacheInode)
    (disk : List DInode) :
    ((ip.valid ≠ 0 ∧ ip.nlink = 0 ∧ ip.ref = 1) →
      iput ndirect ind ip disk =
        ({ ip with
            addrs := List.replicate ip.addrs.length 0
            size := 0
            itype := 0
            valid := 0
            ref := 0 },
          disk.set ip.inum ⟨0, ip.major, ip.minor, ip.nlink, 0,
            List.replicate ip.addrs.length 0⟩,
          (ip.addrs.take ndirect).filter (fun a => a ≠ 0) ++
            (if ip.addrs.getD ndirect 0 ≠ 0
              then ind.filter (fun a => a ≠ 0) ++ [ip.addrs.getD ndirect 0] else []))) ∧
    (¬(ip.valid ≠ 0 ∧ ip.nlink = 0 ∧ ip.ref = 1) →
      iput ndirect ind ip disk = ({ ip with ref := ip.ref - 1 }, disk, [])) := by
  constructor
  · rintro ⟨h1, h2, h3⟩
    rw [iput, if_pos ⟨h1, h2⟩, if_pos h3]
    simp only [itrunc, iupdate, List.set_set]
    rw [h3]
    norm_num
  · intro hC
    by_cases h12 : ip.valid ≠ 0 ∧ ip.nlink = 0
    · have h3 : ¬ip.ref = 1 := fun hc => hC ⟨h12.1, h12.2, hc⟩
      rw [iput, if_pos h12, if_neg h3]
    · rw [iput, if_neg h12]

/-- A concrete unlinked, loaded, last-reference inode with two direct
addresses (one zero) and a live indirect block. -/
def ip4 : CacheInode := ⟨1, 3, 1, 1, T_FILE, 0, 0, 0, 100, [5, 0, 9]⟩

/-- A concrete five-slot disk inode array. -/
def disk4 : List DInode :=
  [⟨0, 0, 0, 0, 0, []⟩, ⟨1, 0, 0, 1, 32, []⟩, ⟨0, 0, 0, 0, 0, []⟩,
    ⟨2, 0, 0, 0, 100, [5, 0, 9]⟩, ⟨0, 0, 0, 0, 0, []⟩]

/-- Witness for C4: `iput` on `ip4` (valid, nlink 0, ref 1, `NDIRECT = 2`,
indirect block holding `[4, 0, 7]`) frees blocks 5, 4, 7 and 9, zeroes the
cached inode, writes type 0 through to disk slot 3, and drops `ref` to 0. -/
theorem iput_last_reference_witness :
    (ip4.valid ≠ 0 ∧ ip4.nlink = 0 ∧ ip4.ref = 1) ∧
      iput 2 [4, 0, 7] ip4 disk4 =
        ({ ip4 with
            addrs := List.replicate ip4.addrs.length 0
            size := 0
            itype := 0
            valid := 0
            ref := 0 },
          disk4.set ip4.inum ⟨0, ip4.major, ip4.minor, ip4.nlink, 0,
            List.replicate ip4.addrs.length 0⟩,
          (ip4.addrs.take 2).filter (fun a => a ≠ 0) ++
            (if ip4.addrs.getD 2 0 ≠ 0
              then ([4, 0, 7] : List Nat).filter (fun a => a ≠ 0) ++ [ip4.addrs.getD 2 0]
              else [])) :=
  ⟨by decide, (iput_last_reference 2 [4, 0, 7] ip4 disk4).1 (by decide)⟩

/-- The names `"."` and `".."` never collide under `namecmp` once `DIRSIZ ≥ 2`:
the stored, zero-padded `"."` differs from `".."` at the second byte. -/
theorem strncmp_dot_dotdot (dirsiz : Nat) (h : 2 ≤ dirsiz) :
    strncmp dirsiz [46, 46] (strncpyPad dirsiz [46]) ≠ 0 := by
  obtain ⟨k, rfl⟩ : ∃ k, dirsiz = k + 2 := ⟨dirsiz - 2, by omega⟩
  have hpad : strncpyPad (k + 2) [46] = 46 :: 0 :: List.replicate k 0 := by
    show [46].take (k + 2) ++ List.replicate (k + 2 - [46].length) 0 = _
    have h1 : [46].take (k + 2) = [46] := List.take_of_length_le (by simp)
    have h2 : k + 2 - [46].length = k + 1 := by simp
    rw [h1, h2, List.replicate_succ]
    rfl
  rw [hpad, strncmp]
  rw [if_pos ⟨by decide, by simp⟩]
  rw [strncmp]
  rw [if_neg (by simp)]
  simp

/-- The filesystem state seen by `create`: the on-disk inode array indexed
by inumber (one device) and, for each directory inode, its entry list (the
interpretation of its content; a freshly allocated inode has size 0, hence
an empty list). -/
structure CState where
  dinodes : List DInode
  dirs : Nat → List Dirent

/-- The on-disk inode with inumber `i`. -/
def dinodeOf (st : CState) (i : Nat) : DInode := st.dinodes.getD i ⟨0, 0, 0, 0, 0, []⟩

/-- Write the on-disk inode with inumber `i` (an `iupdate` of that inode). -/
def setDinode (st : CState) (i : Nat) (d : DInode) : CState :=
  { st with dinodes := st.dinodes.set i d }

/-- Replace the entry list of directory `i`. -/
def setDirs (st : CState) (i : Nat) (es : List Dirent) : CState :=
  { st with dirs := fun k => if k = i then es else st.dirs k }

/-- The scan of `ialloc` over disk inodes, starting at inumber `i`: first
slot with type 0. -/
def iallocScan : List DInode → Nat → Option Nat
  | [], _ => none
  | d :: rest, i => if d.dtype = 0 then some i else iallocScan rest (i + 1)

/-- `ialloc`'s scan starting from inumber 1 (inumber 0 is never used). -/
def iallocFind (st : CState) : Option Nat :=
  match st.dinodes with
  | [] => none
  | _ :: rest => iallocScan rest 1

/-- `ialloc(dev, type)` from fs.c: claim the first free disk inode (type 0)
by zeroing the record (`memset`) and stamping its type, log-writing it, and
return its inumber (the in-memory inode via `iget`); `none` models
`panic("ialloc: no inodes")`. A fresh inode has size 0, so its directory
view is the empty entry list. -/
def ialloc (st : CState) (ty : Nat) : Option (Nat × CState) :=
  match iallocFind st with
  | none => none
  | some inum =>
    some (inum, setDirs (setDinode st inum
      ⟨ty, 0, 0, 0, 0, List.replicate (dinodeOf st inum).addrs.length 0⟩) inum [])

/-- Result of `create`: the 0 return (`fail`), a panic, or the returned
inode's inumber together with the fact that it is returned with its
sleep-lock held (`create` calls `ilock` on it and never unlocks it). -/
inductive CreateRes where
  | fail
  | panicked
  | okC (inum : Nat) (locked : Bool)
deriving DecidableEq

/-- The closing `dirlink(dp, name, ip->inum)` of `create`, with its
`panic("create: dirlink")` on failure. -/
def createFinish (st : CState) (dpInum : Nat) (name : List Nat) (dirsiz inum : Nat) :
    CreateRes × CState :=
  match dirlink dirsiz (st.dirs dpInum) name inum with
  | .dup _ => (.panicked, st)
  | .okDL e => (.okC inum true, setDirs st dpInum e)

/-- The initialization of the fresh inode in `create`: `ilock(ip)`, set
major, minor, `nlink = 1`, `iupdate(ip)`. -/
def createSetup (st1 : CState) (inum : Nat) (major minor : Int) : CState :=
  setDinode st1 inum { dinodeOf st1 inum with major := major, minor := minor, nlink := 1 }

/-- The directory branch of `create`: bump the parent's link count for the
`".."` entry (`iupdate(dp)`) and write the `"."` and `".."` entries into the
new directory; `none` models `panic("create dots")`. -/
def createDots (st2 : CState) (dpInum inum dirsiz : Nat) : Option CState :=
  let st3 := setDinode st2 dpInum
    { dinodeOf st2 dpInum with nlink := (dinodeOf st2 dpInum).nlink + 1 }
  match dirlink dirsiz (st3.dirs inum) [46] inum with
  | .dup _ => none
  | .okDL e1 =>
    match dirlink dirsiz ((setDirs st3 inum e1).dirs inum) [46, 46] dpInum with
    | .dup _ => none
    | .okDL e2 => some (setDirs (setDirs st3 inum e1) inum e2)

/-- `create(path, type, major, minor)` from sysfile.c, after `nameiparent`
has resolved the parent directory to `dpInum` and the final element to
`name`: if `name` exists, return the existing inode when both the request
and the found inode are of file type, else fail; otherwise allocate a fresh
inode, initialize it (`nlink = 1`), write `"."`/`".."` and bump the parent
link count for directories, link `name` in the parent, and return the new
inode locked. -/
def create (st : CState) (dpInum : Nat) (name : List Nat) (dirsiz ty : Nat)
    (major minor : Int) : CreateRes × CState :=
  match dirlookupEnt dirsiz name (st.dirs dpInum) with
  | some (inum, _) =>
    if ty = T_FILE ∧ (dinodeOf st inum).dtype = T_FILE then (.okC inum true, st)
    else (.fail, st)
  | none =>
    match ialloc st ty with
    | none => (.panicked, st)
    | some (inum, st1) =>
      if ty = T_DIR then
        match createDots (createSetup st1 inum major minor) dpInum inum dirsiz with
        | none => (.panicked, createSetup st1 inum major minor)
        | some st5 => createFinish st5 dpInum name dirsiz inum
      else createFinish (createSetup st1 inum major minor) dpInum name dirsiz inum

/-- The `O_CREATE` branch of `sys_open` (sysfile.c): it invokes
`create(path, T_FILE, 0, 0)`. -/
def sysOpenCreate (st : CState) (dpInum : Nat) (name : List Nat) (dirsiz : Nat) :
    CreateRes × CState :=
  create st dpInum name dirsiz T_FILE 0 0

/-- A concrete state: root directory (inumber 1) holds name `[97]` bound to
inumber 5, whose inode is an allocated `T_FILE` with link count 2. -/
def st3c : CState :=
  ⟨[⟨0, 0, 0, 0, 0, []⟩, ⟨T_DIR, 0, 0, 1, 32, []⟩, ⟨0, 0, 0, 0, 0, []⟩, ⟨0, 0, 0, 0, 0, []⟩,
    ⟨0, 0, 0, 0, 0, []⟩, ⟨T_FILE, 0, 0, 2, 7, []⟩],
  fun k => if k = 1 then [⟨5, strncpyPad 14 [97]⟩] else []⟩

/-- Counterexample to claim C3 as stated: when the path already names an
existing `T_FILE`, `sys_open`'s `O_CREATE` call to `create(path, T_FILE, 0, 0)`
returns that existing inode — here inumber 5, which was already allocated
(type ≠ 0) and has link count 2, not 1 — and allocates nothing. -/
theorem create_existing_cex :
    (sysOpenCreate st3c 1 [97] 14).1 = CreateRes.okC 5 true ∧
      (sysOpenCreate st3c 1 [97] 14).2.dinodes = st3c.dinodes ∧
      (dinodeOf st3c 5).nlink = 2 ∧ (dinodeOf st3c 5).nlink ≠ 1 ∧
      (dinodeOf st3c 5).dtype ≠ 0 := by
  decide

/-- Directory views are unchanged by disk-inode writes. -/
theorem dirs_setDinode (st : CState) (i : Nat) (d : DInode) (k : Nat) :
    (setDinode st i d).dirs k = st.dirs k := rfl

/-- Disk inodes are unchanged by directory-view writes. -/
theorem dinodeOf_setDirs (st : CState) (i : Nat) (e : List Dirent) (k : Nat) :
    dinodeOf (setDirs st i e) k = dinodeOf st k := rfl

/-- Reading the written directory view. -/
theorem dirs_setDirs_self (st : CState) (i : Nat) (e : List Dirent) :
    (setDirs st i e).dirs i = e := by
  simp [setDirs]

/-- Reading an untouched directory view. -/
theorem dirs_setDirs_ne (st : CState) (i : Nat) (e : List Dirent) (k : Nat) (h : k ≠ i) :
    (setDirs st i e).dirs k = st.dirs k := by
  simp [setDirs, h]

/-- Reading the written disk inode. -/
theorem dinodeOf_setDinode_self (st : CState) (i : Nat) (d : DInode)
    (h : i < st.dinodes.length) : dinodeOf (setDinode st i d) i = d := by
  simp [dinodeOf, setDinode, List.getD_eq_getElem?_getD, List.getElem?_set_self, h]

/-- Reading an untouched disk inode. -/
theorem dinodeOf_setDinode_ne (st : CState) (i : Nat) (d : DInode) (k : Nat) (h : k ≠ i) :
    dinodeOf (setDinode st i d) k = dinodeOf st k := by
  simp [dinodeOf, setDinode, List.getD_eq_getElem?_getD, List.getElem?_set_ne (Ne.symm h)]

/-- The `ialloc` scan returns an in-range slot of type 0. -/
theorem iallocScan_some : ∀ (l : List DInode) (i j : Nat), iallocScan l i = some j →
    i ≤ j ∧ j - i < l.length ∧ (l.getD (j - i) ⟨0, 0, 0, 0, 0, []⟩).dtype = 0 := by
  intro l
  induction l with
  | nil => intro i j h; simp [iallocScan] at h
  | cons d rest ih =>
    intro i j h
    rw [iallocScan] at h
    by_cases h0 : d.dtype = 0
    · rw [if_pos h0] at h
      injection h with h1
      subst h1
      refine ⟨le_refl _, by simp, ?_⟩
      simpa using h0
    · rw [if_neg h0] at h
      obtain ⟨ha, hb, hc⟩ := ih (i + 1) j h
      have hji : j - i = (j - (i + 1)) + 1 := by omega
      refine ⟨by omega, by simp; omega, ?_⟩
      rw [hji, List.getD_cons_succ]
      exact hc

/-- `ialloc`'s chosen inumber is at least 1, in range, and was free. -/
theorem iallocFind_props (st : CState) (inum : Nat) (h : iallocFind st = some inum) :
    1 ≤ inum ∧ inum < st.dinodes.length ∧ (dinodeOf st inum).dtype = 0 := by
  rw [iallocFind] at h
  rcases hd : st.dinodes with _ | ⟨d0, rest⟩
  · rw [hd] at h
    simp at h
  · rw [hd] at h
    obtain ⟨ha, hb, hc⟩ := iallocScan_some rest 1 inum h
    refine ⟨ha, by simp; omega, ?_⟩
    rw [dinodeOf, hd]
    have hs : inum = (inum - 1) + 1 := by omega
    rw [hs, List.getD_cons_succ]
    exact hc

/-- Claim C3 (amended): `sys_open` with `O_CREATE` invokes
`create(path, T_FILE, 0, 0)`. When the final path element is absent from the
parent directory and a free disk inode exists, `create` returns a newly
allocated (previously type 0), locked inode whose link count equals 1;
directories created via `create` additionally get `"."` and `".."` entries
and bump the parent's link count, while non-directories leave the parent's
inode unchanged. (When the element already names a `T_FILE` inode, `create`
instead returns that existing inode — see the counterexample.) -/
theorem create_fresh_allocation (st : CState) (dpInum : Nat) (name : List Nat)
    (dirsiz ty : Nat) (major minor : Int) (inum : Nat)
    (habs : dirlookupEnt dirsiz name (st.dirs dpInum) = none)
    (hfree : iallocFind st = some inum)
    (hdp : (dinodeOf st dpInum).dtype = T_DIR)
    (hdz : 2 ≤ dirsiz) :
    sysOpenCreate st dpInum name dirsiz = create st dpInum name dirsiz T_FILE 0 0 ∧
    ∃ stF, create st dpInum name dirsiz ty major minor = (.okC inum true, stF) ∧
      (dinodeOf st inum).dtype = 0 ∧
      dinodeOf stF inum =
        ⟨ty, major, minor, 1, 0, List.replicate (dinodeOf st inum).addrs.length 0⟩ ∧
      (ty = T_DIR → (dinodeOf stF dpInum).nlink = (dinodeOf st dpInum).nlink + 1 ∧
        stF.dirs inum =
          [⟨inum, strncpyPad dirsiz [46]⟩, ⟨dpInum, strncpyPad dirsiz [46, 46]⟩]) ∧
      (ty ≠ T_DIR → dinodeOf stF dpInum = dinodeOf st dpInum) := by
  obtain ⟨hge1, hlt, hfree0⟩ := iallocFind_props st inum hfree
  have hnd : inum ≠ dpInum := by
    intro hc
    rw [hc] at hfree0
    exact absurd (hfree0.symm.trans hdp) (by decide)
  have hdplt : dpInum < st.dinodes.length := by
    by_contra hge
    rw [dinodeOf, List.getD_eq_getElem?_getD, List.getElem?_eq_none (by omega)] at hdp
    simp [T_DIR] at hdp
  refine ⟨rfl, ?_⟩
  have hia : ialloc st ty = some (inum, setDirs (setDinode st inum
      ⟨ty, 0, 0, 0, 0, List.replicate (dinodeOf st inum).addrs.length 0⟩) inum []) := by
    rw [ialloc, hfree]
  simp only [create, habs, hia]
  set dz : DInode := ⟨ty, 0, 0, 0, 0, List.replicate (dinodeOf st inum).addrs.length 0⟩
    with hdzdef
  set st1 : CState := setDirs (setDinode st inum dz) inum [] with hst1def
  set st2 : CState := createSetup st1 inum major minor with hst2def
  have hd1len : inum < st1.dinodes.length := by
    rw [hst1def]
    show inum < (st.dinodes.set inum dz).length
    rw [List.length_set]
    exact hlt
  have hd2len : dpInum < st2.dinodes.length := by
    rw [hst2def]
    show dpInum < (st1.dinodes.set inum _).length
    rw [List.length_set, hst1def]
    show dpInum < (st.dinodes.set inum dz).length
    rw [List.length_set]
    exact hdplt
  have hsd1 : dinodeOf st1 inum = dz := by
    rw [hst1def]
    rw [dinodeOf_setDirs]
    exact dinodeOf_setDinode_self st inum dz hlt
  have hsd2self : dinodeOf st2 inum =
      ⟨ty, major, minor, 1, 0, List.replicate (dinodeOf st inum).addrs.length 0⟩ := by
    rw [hst2def]
    show dinodeOf (setDinode st1 inum
      { dinodeOf st1 inum with major := major, minor := minor, nlink := 1 }) inum = _
    rw [dinodeOf_setDinode_self st1 inum _ hd1len, hsd1, hdzdef]
  have hsd2dp : dinodeOf st2 dpInum = dinodeOf st dpInum := by
    rw [hst2def]
    show dinodeOf (setDinode st1 inum _) dpInum = _
    rw [dinodeOf_setDinode_ne st1 inum _ dpInum (Ne.symm hnd)]
    rw [hst1def, dinodeOf_setDirs]
    exact dinodeOf_setDinode_ne st inum dz dpInum (Ne.symm hnd)
  have hdirs2dp : st2.dirs dpInum = st.dirs dpInum := by
    rw [hst2def]
    show st1.dirs dpInum = _
    rw [hst1def]
    rw [dirs_setDirs_ne _ inum [] dpInum (Ne.symm hnd)]
    exact dirs_setDinode st inum dz dpInum
  have hdirs2i : st2.dirs inum = [] := by
    rw [hst2def]
    show st1.dirs inum = []
    rw [hst1def]
    exact dirs_setDirs_self _ inum []
  have hdl : ∀ s : CState, s.dirs dpInum = st.dirs dpInum →
      ∃ e3, createFinish s dpInum name dirsiz inum = (.okC inum true, setDirs s dpInum e3) := by
    intro s hs
    rw [createFinish, hs, dirlink, habs]
    rcases hfe : findEmptyEnt (st.dirs dpInum) with _ | off
    · exact ⟨_, rfl⟩
    · exact ⟨_, rfl⟩
  by_cases hty : ty = T_DIR
  · rw [if_pos hty]
    have hinum0 : ¬inum = 0 := by omega
    have hlk2 : dirlookupEnt dirsiz [46, 46] [⟨inum, strncpyPad dirsiz [46]⟩] = none := by
      rw [dirlookupEnt]
      rw [if_neg (show ¬(Dirent.mk inum (strncpyPad dirsiz [46])).inum = 0 from hinum0)]
      rw [if_neg (show ¬strncmp dirsiz [46, 46] (Dirent.mk inum (strncpyPad dirsiz [46])).name
          = 0 from strncmp_dot_dotdot dirsiz hdz)]
      rfl
    have hfe2 : findEmptyEnt [⟨inum, strncpyPad dirsiz [46]⟩] = none := by
      rw [findEmptyEnt]
      rw [if_neg (show ¬(Dirent.mk inum (strncpyPad dirsiz [46])).inum = 0 from hinum0)]
      rfl
    have hd2 : dirlink dirsiz [⟨inum, strncpyPad dirsiz [46]⟩] [46, 46] dpInum =
        .okDL [⟨inum, strncpyPad dirsiz [46]⟩, ⟨dpInum, strncpyPad dirsiz [46, 46]⟩] := by
      rw [dirlink, hlk2, hfe2]
      rfl
    have hdots : createDots st2 dpInum inum dirsiz = some (setDirs (setDirs
        (setDinode st2 dpInum { dinodeOf st2 dpInum with
          nlink := (dinodeOf st2 dpInum).nlink + 1 }) inum [⟨inum, strncpyPad dirsiz [46]⟩])
        inum [⟨inum, strncpyPad dirsiz [46]⟩, ⟨dpInum, strncpyPad dirsiz [46, 46]⟩]) := by
      have h1f : dirlink dirsiz ((setDinode st2 dpInum { dinodeOf st2 dpInum with
          nlink := (dinodeOf st2 dpInum).nlink + 1 }).dirs inum) [46] inum =
          .okDL [⟨inum, strncpyPad dirsiz [46]⟩] := by
        rw [show (setDinode st2 dpInum { dinodeOf st2 dpInum with
          nlink := (dinodeOf st2 dpInum).nlink + 1 }).dirs inum = ([] : List Dirent)
          from hdirs2i]
        rfl
      simp only [createDots]
      split
      next heq =>
        rw [h1f] at heq
        exact DLRes.noConfusion heq
      next e1' heq =>
        rw [h1f] at heq
        have he1 : [(⟨inum, strncpyPad dirsiz [46]⟩ : Dirent)] = e1' := DLRes.okDL.inj heq
        subst he1
        split
        next heq2 =>
          rw [dirs_setDirs_self, hd2] at heq2
          exact DLRes.noConfusion heq2
        next e2' heq2 =>
          rw [dirs_setDirs_self, hd2] at heq2
          have he2 : [(⟨inum, strncpyPad dirsiz [46]⟩ : Dirent),
              ⟨dpInum, strncpyPad dirsiz [46, 46]⟩] = e2' := DLRes.okDL.inj heq2
          subst he2
          rfl
    rw [hdots]
    have hst5dp : (setDirs (setDirs (setDinode st2 dpInum { dinodeOf st2 dpInum with
        nlink := (dinodeOf st2 dpInum).nlink + 1 }) inum [⟨inum, strncpyPad dirsiz [46]⟩])
        inum [⟨inum, strncpyPad dirsiz [46]⟩, ⟨dpInum, strncpyPad dirsiz [46, 46]⟩]).dirs
        dpInum = st.dirs dpInum := by
      rw [dirs_setDirs_ne _ inum _ dpInum (Ne.symm hnd),
        dirs_setDirs_ne _ inum _ dpInum (Ne.symm hnd)]
      show st2.dirs dpInum = _
      exact hdirs2dp
    obtain ⟨e3, he3⟩ := hdl _ hst5dp
    refine ⟨_, he3, hfree0, ?_, ?_, fun hc => absurd hty hc⟩
    · rw [dinodeOf_setDirs, dinodeOf_setDirs, dinodeOf_setDirs]
      rw [dinodeOf_setDinode_ne st2 dpInum _ inum hnd]
      exact hsd2self
    · intro _
      constructor
      · rw [dinodeOf_setDirs, dinodeOf_setDirs, dinodeOf_setDirs]
        rw [dinodeOf_setDinode_self st2 dpInum _ hd2len]
        show (dinodeOf st2 dpInum).nlink + 1 = _
        rw [hsd2dp]
      · rw [dirs_setDirs_ne _ dpInum e3 inum hnd]
        exact dirs_setDirs_self _ inum _
  · rw [if_neg hty]
    obtain ⟨e3, he3⟩ := hdl st2 hdirs2dp
    refine ⟨setDirs st2 dpInum e3, he3, hfree0, ?_, fun hc => absurd hc hty, ?_⟩
    · rw [dinodeOf_setDirs]
      exact hsd2self
    · intro _
      rw [dinodeOf_setDirs]
      exact hsd2dp

/-- A concrete state for fresh creation: root directory (inumber 1) is an
empty `T_DIR`, and disk inode 2 is free (type 0). -/
def st3w : CState :=
  ⟨[⟨0, 0, 0, 0, 0, []⟩, ⟨T_DIR, 0, 0, 1, 32, []⟩, ⟨0, 0, 0, 0, 0, []⟩],
  fun _ => []⟩

/-- Witness for the amended C3 at a concrete state: the name `[98]` is absent
from the root directory and disk inode 2 is free, so `create` returns the
freshly allocated inode 2, locked, with link count 1, leaving the parent's
inode untouched. -/
theorem create_fresh_allocation_witness :
    dirlookupEnt 14 [98] (st3w.dirs 1) = none ∧
    iallocFind st3w = some 2 ∧
    (dinodeOf st3w 1).dtype = T_DIR ∧ 2 ≤ 14 ∧
    (sysOpenCreate st3w 1 [98] 14 = create st3w 1 [98] 14 T_FILE 0 0 ∧
      ∃ stF, create st3w 1 [98] 14 T_FILE 0 0 = (.okC 2 true, stF) ∧
        (dinodeOf st3w 2).dtype = 0 ∧
        dinodeOf stF 2 =
          ⟨T_FILE, 0, 0, 1, 0, List.replicate (dinodeOf st3w 2).addrs.length 0⟩ ∧
        (T_FILE = T_DIR → (dinodeOf stF 1).nlink = (dinodeOf st3w 1).nlink + 1 ∧
          stF.dirs 2 = [⟨2, strncpyPad 14 [46]⟩, ⟨1, strncpyPad 14 [46, 46]⟩]) ∧
        (T_FILE ≠ T_DIR → dinodeOf stF 1 = dinodeOf st3w 1)) :=
  ⟨by decide, by decide, by decide, by decide,
    create_fresh_allocation st3w 1 [98] 14 T_FILE 0 0 2 (by decide) (by decide)
      (by decide) (by decide)⟩
